import Mathlib

/-!
# Verification of the nl2sql schema-aware query-generation pipeline

A shallow embedding, in Lean 4, of the decision logic of
`src/query_processor.py` (class `QueryProcessor`), together with proofs of
the behavioural claims of the specification.

The embedding works over `List Char` as the model of Python `str`.
Python's `str.upper`/`str.lower` are modelled character-wise by
`Char.toUpper`/`Char.toLower`, which agree with Python on ASCII text (the
texts the pipeline manipulates: SQL keywords, regex-matched identifiers of
`[a-zA-Z_][a-zA-Z0-9_]*`, and ASCII whitespace).  Python's `re` word
characters (`\w`, `\b`) are modelled by `isWordChar` for ASCII strings.
-/

namespace NL2SQL

/-- ASCII word character of the regex classes `\w` / `[a-zA-Z0-9_]`. -/
def isWordChar (c : Char) : Bool :=
  c.isAlphanum || c == '_'

/-- First character of the regex identifier class `[a-zA-Z_]`. -/
def isIdentStart (c : Char) : Bool :=
  c.isAlpha || c == '_'

/-- ASCII whitespace of the regex class `\s` and of Python `str.strip()`:
space, tab, newline, carriage return, vertical tab, form feed. -/
def isPySpace (c : Char) : Bool :=
  c == ' ' || c == '\t' || c == '\n' || c == '\r' ||
    c == Char.ofNat 11 || c == Char.ofNat 12

/-- Python `str.upper()` on an ASCII string, character-wise. -/
def pyUpper (l : List Char) : List Char := l.map Char.toUpper

/-- Python `str.lower()` on an ASCII string, character-wise. -/
def pyLower (l : List Char) : List Char := l.map Char.toLower

/-- Python `str.strip()`: remove leading and trailing whitespace. -/
def pyStrip (l : List Char) : List Char :=
  ((l.dropWhile isPySpace).reverse.dropWhile isPySpace).reverse

/-- The PostgreSQL reserved-word set of `QueryProcessor._needs_quoting`
(`pg_keywords`, src/query_processor.py lines 24-38). -/
def pg_keywords : List (List Char) :=
  ["all", "analyse", "analyze", "and", "any", "array", "as", "asc",
   "asymmetric", "authorization", "binary", "both", "case", "cast",
   "check", "collate", "column", "constraint", "create", "cross",
   "current_date", "current_role", "current_time", "current_timestamp",
   "current_user", "default", "deferrable", "desc", "distinct", "do",
   "else", "end", "except", "false", "for", "foreign", "freeze", "from",
   "full", "grant", "group", "having", "ilike", "in", "initially", "inner",
   "intersect", "into", "is", "isnull", "join", "leading", "left", "like",
   "limit", "localtime", "localtimestamp", "natural", "not", "notnull",
   "null", "offset", "on", "only", "or", "order", "outer", "overlaps",
   "placing", "primary", "references", "right", "select", "session_user",
   "similar", "some", "symmetric", "table", "then", "to", "trailing",
   "true", "union", "unique", "user", "using", "verbose", "when", "where"
  ].map String.data

/-- `QueryProcessor._needs_quoting` (src/query_processor.py lines 22-46):
```
return (identifier.upper() == identifier or
        identifier.lower() != identifier or
        ' ' in identifier or
        any(c in identifier for c in '.-') or
        identifier.lower() in pg_keywords)
``` -/
def needs_quoting (identifier : List Char) : Bool :=
  pyUpper identifier == identifier ||
  pyLower identifier != identifier ||
  identifier.contains ' ' ||
  identifier.contains '.' ||
  identifier.contains '-' ||
  pg_keywords.contains (pyLower identifier)

/-- `QueryProcessor._quote_identifier` (src/query_processor.py lines 48-52):
wrap in double quotes exactly when `_needs_quoting` holds. -/
def quote_identifier (identifier : List Char) : List Char :=
  if needs_quoting identifier then '"' :: identifier ++ ['"'] else identifier

/-! ## Character-level facts -/

theorem toNat_ofNat_valid {n : Nat} (h : n.isValidChar) :
    (Char.ofNat n).toNat = n := by
  rw [Char.ofNat, dif_pos h]
  rfl

theorem isUpper_toNat_iff {c : Char} :
    c.isUpper = true ↔ (65 ≤ c.toNat ∧ c.toNat ≤ 90) := by
  simp only [Char.isUpper, Bool.and_eq_true, decide_eq_true_eq, UInt32.le_def,
    BitVec.le_def]
  exact Iff.rfl

theorem isLower_toNat_iff {c : Char} :
    c.isLower = true ↔ (97 ≤ c.toNat ∧ c.toNat ≤ 122) := by
  simp only [Char.isLower, Bool.and_eq_true, decide_eq_true_eq, UInt32.le_def,
    BitVec.le_def]
  exact Iff.rfl

theorem toLower_ne_of_isUpper {c : Char} (h : c.isUpper = true) :
    Char.toLower c ≠ c := by
  obtain ⟨h1, h2⟩ := isUpper_toNat_iff.mp h
  intro habs
  have : (Char.toLower c).toNat = c.toNat + 32 := by
    rw [Char.toLower]
    simp only [ge_iff_le]
    rw [if_pos ⟨h1, h2⟩]
    exact toNat_ofNat_valid (by left; omega)
  rw [habs] at this
  omega

theorem toUpper_ne_of_isLower {c : Char} (h : c.isLower = true) :
    Char.toUpper c ≠ c := by
  obtain ⟨h1, h2⟩ := isLower_toNat_iff.mp h
  intro habs
  have : (Char.toUpper c).toNat = c.toNat - 32 := by
    rw [Char.toUpper]
    simp only [ge_iff_le]
    rw [if_pos ⟨h1, h2⟩]
    exact toNat_ofNat_valid (by left; omega)
  rw [habs] at this
  omega

theorem toUpper_eq_of_not_isLower {c : Char} (h : c.isLower = false) :
    Char.toUpper c = c := by
  rw [Char.toUpper]
  simp only [ge_iff_le]
  rw [if_neg]
  intro hc
  rw [← isLower_toNat_iff, h] at hc
  exact Bool.false_ne_true hc

theorem toLower_eq_of_not_isUpper {c : Char} (h : c.isUpper = false) :
    Char.toLower c = c := by
  rw [Char.toLower]
  simp only [ge_iff_le]
  rw [if_neg]
  intro hc
  rw [← isUpper_toNat_iff, h] at hc
  exact Bool.false_ne_true hc

/-- Pointwise consequence of a map fixing a list. -/
theorem map_eq_self_mem {f : Char → Char} :
    ∀ {l : List Char}, l.map f = l → ∀ c ∈ l, f c = c := by
  intro l
  induction l with
  | nil =>
    intro _ c hc
    exact absurd hc (List.not_mem_nil c)
  | cons a t ih =>
    intro h c hc
    rw [List.map_cons, List.cons.injEq] at h
    rcases List.mem_cons.mp hc with hc | hc
    · exact hc ▸ h.1
    · exact ih h.2 c hc

/-- Converse: a pointwise-fixed list is fixed by the map. -/
theorem map_eq_self_of_mem {f : Char → Char} {l : List Char}
    (h : ∀ c ∈ l, f c = c) : l.map f = l := by
  induction l with
  | nil => rfl
  | cons a t ih =>
    rw [List.map_cons, h a (List.mem_cons_self a t),
      ih fun c hc => h c (List.mem_cons_of_mem a hc)]

theorem isDigit_toNat_iff {c : Char} :
    c.isDigit = true ↔ (48 ≤ c.toNat ∧ c.toNat ≤ 57) := by
  simp only [Char.isDigit, Bool.and_eq_true, decide_eq_true_eq, UInt32.le_def,
    BitVec.le_def]
  exact Iff.rfl

theorem char_eq_iff_toNat {c d : Char} : c = d ↔ c.toNat = d.toNat := by
  constructor
  · intro h; rw [h]
  · intro h
    rw [← Char.ofNat_toNat c, h, Char.ofNat_toNat]

theorem alpha_toNat_iff {c : Char} :
    c.isAlpha = true ↔
      ((65 ≤ c.toNat ∧ c.toNat ≤ 90) ∨ (97 ≤ c.toNat ∧ c.toNat ≤ 122)) := by
  rw [Char.isAlpha, Bool.or_eq_true, isUpper_toNat_iff, isLower_toNat_iff]

theorem wordChar_toNat_iff {c : Char} :
    isWordChar c = true ↔
      ((48 ≤ c.toNat ∧ c.toNat ≤ 57) ∨ (65 ≤ c.toNat ∧ c.toNat ≤ 90) ∨
        (97 ≤ c.toNat ∧ c.toNat ≤ 122) ∨ c.toNat = 95) := by
  rw [isWordChar, Bool.or_eq_true, Char.isAlphanum, Bool.or_eq_true,
    alpha_toNat_iff, isDigit_toNat_iff, beq_iff_eq,
    show (c = '_') ↔ c.toNat = 95 from char_eq_iff_toNat]
  tauto

theorem identStart_toNat_iff {c : Char} :
    isIdentStart c = true ↔
      ((65 ≤ c.toNat ∧ c.toNat ≤ 90) ∨ (97 ≤ c.toNat ∧ c.toNat ≤ 122) ∨
        c.toNat = 95) := by
  rw [isIdentStart, Bool.or_eq_true, alpha_toNat_iff, beq_iff_eq,
    show (c = '_') ↔ c.toNat = 95 from char_eq_iff_toNat]
  tauto

theorem pySpace_toNat_iff {c : Char} :
    isPySpace c = true ↔
      (c.toNat = 32 ∨ c.toNat = 9 ∨ c.toNat = 10 ∨ c.toNat = 13 ∨
        c.toNat = 11 ∨ c.toNat = 12) := by
  rw [isPySpace]
  simp only [Bool.or_eq_true, beq_iff_eq]
  rw [show (c = ' ') ↔ c.toNat = 32 from char_eq_iff_toNat,
    show (c = '\t') ↔ c.toNat = 9 from char_eq_iff_toNat,
    show (c = '\n') ↔ c.toNat = 10 from char_eq_iff_toNat,
    show (c = '\r') ↔ c.toNat = 13 from char_eq_iff_toNat,
    show (c = Char.ofNat 11) ↔ c.toNat = 11 from char_eq_iff_toNat,
    show (c = Char.ofNat 12) ↔ c.toNat = 12 from char_eq_iff_toNat]
  tauto

-- derived class facts
theorem word_not_space {c : Char} (h : isWordChar c = true) :
    isPySpace c = false := by
  rw [← Bool.not_eq_true]
  intro hs
  rcases wordChar_toNat_iff.mp h with h' | h' | h' | h' <;>
    rcases pySpace_toNat_iff.mp hs with hs' | hs' | hs' | hs' | hs' | hs' <;>
    omega

theorem space_not_word {c : Char} (h : isPySpace c = true) :
    isWordChar c = false := by
  rw [← Bool.not_eq_true]
  intro hw
  rw [word_not_space hw] at h
  exact Bool.false_ne_true h

theorem alpha_word {c : Char} (h : c.isAlpha = true) : isWordChar c = true := by
  rw [wordChar_toNat_iff]
  rcases alpha_toNat_iff.mp h with h' | h'
  · tauto
  · tauto

theorem identStart_word {c : Char} (h : isIdentStart c = true) :
    isWordChar c = true := by
  rw [wordChar_toNat_iff]
  rcases identStart_toNat_iff.mp h with h' | h' | h' <;> tauto

theorem not_alpha_not_word {c : Char} (h : isWordChar c = false) :
    c.isAlpha = false := by
  rw [← Bool.not_eq_true]
  intro ha
  rw [alpha_word ha] at h
  exact Bool.noConfusion h


theorem toNat_toLower (c : Char) :
    (Char.toLower c).toNat =
      if 65 ≤ c.toNat ∧ c.toNat ≤ 90 then c.toNat + 32 else c.toNat := by
  rw [Char.toLower]
  simp only [ge_iff_le]
  by_cases h : 65 ≤ c.toNat ∧ c.toNat ≤ 90
  · rw [if_pos h, if_pos h]
    exact toNat_ofNat_valid (by left; omega)
  · rw [if_neg h, if_neg h]

theorem toNat_toUpper (c : Char) :
    (Char.toUpper c).toNat =
      if 97 ≤ c.toNat ∧ c.toNat ≤ 122 then c.toNat - 32 else c.toNat := by
  rw [Char.toUpper]
  simp only [ge_iff_le]
  by_cases h : 97 ≤ c.toNat ∧ c.toNat ≤ 122
  · rw [if_pos h, if_pos h]
    exact toNat_ofNat_valid (by left; omega)
  · rw [if_neg h, if_neg h]

theorem word_toLower {c : Char} (h : isWordChar c = true) :
    isWordChar (Char.toLower c) = true := by
  rw [wordChar_toNat_iff, toNat_toLower]
  rcases wordChar_toNat_iff.mp h with h' | h' | h' | h' <;>
    [rw [if_neg (by omega)]; rw [if_pos (by omega)]; rw [if_neg (by omega)];
      rw [if_neg (by omega)]] <;> omega

theorem word_of_word_toLower {c : Char} (h : isWordChar (Char.toLower c) = true) :
    isWordChar c = true := by
  rw [wordChar_toNat_iff] at h ⊢
  rw [toNat_toLower] at h
  by_cases hc : 65 ≤ c.toNat ∧ c.toNat ≤ 90
  · omega
  · rw [if_neg hc] at h
    exact h

theorem identStart_toLower {c : Char} (h : isIdentStart c = true) :
    isIdentStart (Char.toLower c) = true := by
  rw [identStart_toNat_iff, toNat_toLower]
  rcases identStart_toNat_iff.mp h with h' | h' | h' <;>
    [rw [if_pos (by omega)]; rw [if_neg (by omega)]; rw [if_neg (by omega)]] <;>
    omega

theorem toLower_idem (c : Char) :
    Char.toLower (Char.toLower c) = Char.toLower c := by
  rw [char_eq_iff_toNat, toNat_toLower, toNat_toLower]
  split_ifs <;> omega

-- takeWhile / dropWhile helpers
theorem takeWhile_append_all {α : Type} {p : α → Bool} :
    ∀ {u v : List α}, (∀ c ∈ u, p c = true) →
      (u ++ v).takeWhile p = u ++ v.takeWhile p := by
  intro u
  induction u with
  | nil => intro v _; rfl
  | cons a t ih =>
    intro v h
    rw [List.cons_append, List.takeWhile_cons_of_pos (h a (by simp)),
      ih fun c hc => h c (by simp [hc])]
    rfl

theorem dropWhile_append_all {α : Type} {p : α → Bool} :
    ∀ {u v : List α}, (∀ c ∈ u, p c = true) →
      (u ++ v).dropWhile p = v.dropWhile p := by
  intro u
  induction u with
  | nil => intro v _; rfl
  | cons a t ih =>
    intro v h
    rw [List.cons_append, List.dropWhile_cons_of_pos (h a (by simp)),
      ih fun c hc => h c (by simp [hc])]

theorem takeWhile_append_exists {α : Type} {p : α → Bool} :
    ∀ {u v : List α}, (∃ c ∈ u, p c = false) →
      (u ++ v).takeWhile p = u.takeWhile p ∧
        (u ++ v).dropWhile p = u.dropWhile p ++ v := by
  intro u
  induction u with
  | nil =>
    intro v h
    obtain ⟨c, hc, _⟩ := h
    exact absurd hc (List.not_mem_nil c)
  | cons a t ih =>
    intro v h
    by_cases ha : p a = true
    · obtain ⟨c, hc, hcf⟩ := h
      have hct : c ∈ t := by
        rcases List.mem_cons.mp hc with rfl | hct
        · rw [ha] at hcf; exact Bool.noConfusion hcf
        · exact hct
      obtain ⟨h1, h2⟩ := ih ⟨c, hct, hcf⟩
      rw [List.cons_append, List.takeWhile_cons_of_pos ha,
        List.takeWhile_cons_of_pos ha, h1, List.dropWhile_cons_of_pos ha,
        List.dropWhile_cons_of_pos ha, h2]
      exact ⟨rfl, rfl⟩
    · rw [Bool.not_eq_true] at ha
      rw [List.cons_append, List.takeWhile_cons_of_neg (by simp [ha]),
        List.takeWhile_cons_of_neg (by simp [ha]),
        List.dropWhile_cons_of_neg (by simp [ha]),
        List.dropWhile_cons_of_neg (by simp [ha])]
      exact ⟨rfl, rfl⟩

theorem dropWhile_ne_nil_of_exists {α : Type} {p : α → Bool} {u : List α}
    (h : ∃ c ∈ u, p c = false) : u.dropWhile p ≠ [] := by
  induction u with
  | nil =>
    obtain ⟨c, hc, _⟩ := h
    exact absurd hc (List.not_mem_nil c)
  | cons a t ih =>
    by_cases ha : p a = true
    · obtain ⟨c, hc, hcf⟩ := h
      have hct : c ∈ t := by
        rcases List.mem_cons.mp hc with rfl | hct
        · rw [ha] at hcf; exact Bool.noConfusion hcf
        · exact hct
      rw [List.dropWhile_cons_of_pos ha]
      exact ih ⟨c, hct, hcf⟩
    · rw [Bool.not_eq_true] at ha
      rw [List.dropWhile_cons_of_neg (by simp [ha])]
      exact List.cons_ne_nil a t

theorem dropWhile_head_false {α : Type} {p : α → Bool} :
    ∀ {u : List α} {d : α} {t : List α}, u.dropWhile p = d :: t →
      p d = false := by
  intro u
  induction u with
  | nil => intro d t h; exact absurd h (by simp)
  | cons a s ih =>
    intro d t h
    by_cases ha : p a = true
    · rw [List.dropWhile_cons_of_pos ha] at h
      exact ih h
    · rw [Bool.not_eq_true] at ha
      rw [List.dropWhile_cons_of_neg (by simp [ha])] at h
      injection h with h1 _
      rw [← h1]
      exact ha

/-! ## Claim C5: quoting of uppercase / reserved / lowercase identifiers -/

/-- Counterexample for claim C5: the identifier `_1` is all-lowercase
(it equals its own `lower()` form), is not reserved, and contains no
space, `.` or `-`, yet `_needs_quoting` returns `True` for it, because
`"_1".upper() == "_1"`. -/
theorem C5_counterexample :
    needs_quoting ['_', '1'] = true ∧
    pyLower ['_', '1'] = ['_', '1'] ∧
    (['_', '1'].contains ' ' = false) ∧
    (['_', '1'].contains '.' = false) ∧
    (['_', '1'].contains '-' = false) ∧
    pg_keywords.contains (pyLower ['_', '1']) = false := by
  exact ⟨by decide, by decide, by decide, by decide, by decide, by decide⟩

/-- Claim C5 (amended): `_needs_quoting` returns `true` for every
identifier containing an uppercase letter and for every identifier that
case-insensitively matches a reserved word; it returns `false` for every
all-lowercase, non-reserved identifier without space, `.` or `-` that
contains at least one lowercase letter (without a lowercase letter the
`upper() == identifier` disjunct fires, see `C5_counterexample`). -/
theorem C5_needs_quoting_spec :
    (∀ (l : List Char) (c : Char), c ∈ l → c.isUpper = true →
      needs_quoting l = true) ∧
    (∀ l : List Char, pg_keywords.contains (pyLower l) = true →
      needs_quoting l = true) ∧
    (∀ l : List Char, pyLower l = l →
      (∃ c ∈ l, c.isLower = true) →
      l.contains ' ' = false →
      l.contains '.' = false →
      l.contains '-' = false →
      pg_keywords.contains (pyLower l) = false →
      needs_quoting l = false) := by
  refine ⟨?_, ?_, ?_⟩
  · intro l c hc hup
    have hne : pyLower l ≠ l := fun h =>
      toLower_ne_of_isUpper hup (map_eq_self_mem h c hc)
    have : (pyLower l != l) = true := bne_iff_ne.mpr hne
    rw [needs_quoting, this]
    simp
  · intro l h
    rw [needs_quoting, h]
    simp
  · intro l hlow hex hsp hdot hdash hkw
    obtain ⟨c, hc, hclow⟩ := hex
    have hup : (pyUpper l == l) = false := by
      rw [beq_eq_false_iff_ne]
      intro h
      exact toUpper_ne_of_isLower hclow (map_eq_self_mem h c hc)
    have hlo : (pyLower l != l) = false := by
      rw [bne_eq_false_iff_eq]
      exact hlow
    rw [needs_quoting, hup, hlo, hsp, hdot, hdash, hkw]
    rfl

/-- Witness: `C5_needs_quoting_spec` applied to the concrete identifiers
`Ab` (uppercase letter), `from` (reserved word) and `emp_1` (plain). -/
theorem C5_needs_quoting_spec_witness :
    needs_quoting ['A', 'b'] = true ∧
    needs_quoting ['f', 'r', 'o', 'm'] = true ∧
    needs_quoting ['e', 'm', 'p', '_', '1'] = false := by
  refine ⟨?_, ?_, ?_⟩
  · exact C5_needs_quoting_spec.1 ['A', 'b'] 'A' (by decide) (by decide)
  · exact C5_needs_quoting_spec.2.1 ['f', 'r', 'o', 'm'] (by decide)
  · exact C5_needs_quoting_spec.2.2 ['e', 'm', 'p', '_', '1'] (by decide)
      ⟨'e', by decide, by decide⟩ (by decide) (by decide) (by decide)
      (by decide)

/-! ## Claim C10: identifiers with no letters are always quoted -/

/-- Claim C10: a non-empty identifier containing no letters at all equals
its own `upper()` form, so `_needs_quoting` returns `true` and
`_quote_identifier` wraps it in double quotes. -/
theorem C10_no_letters_quoted (l : List Char) (_hne : l ≠ [])
    (hnl : ∀ c ∈ l, c.isAlpha = false) :
    needs_quoting l = true ∧ quote_identifier l = '"' :: l ++ ['"'] := by
  have hup : pyUpper l = l := by
    apply map_eq_self_of_mem
    intro c hc
    apply toUpper_eq_of_not_isLower
    have := hnl c hc
    simp only [Char.isAlpha, Bool.or_eq_false_iff] at this
    exact this.2
  have hq : needs_quoting l = true := by
    rw [needs_quoting, beq_iff_eq.mpr hup]
    simp
  exact ⟨hq, by simp [quote_identifier, hq]⟩

/-- Witness: `C10_no_letters_quoted` at the concrete identifier `_123`. -/
theorem C10_no_letters_quoted_witness :
    needs_quoting ['_', '1', '2', '3'] = true ∧
    quote_identifier ['_', '1', '2', '3'] =
      '"' :: ['_', '1', '2', '3'] ++ ['"'] := by
  exact C10_no_letters_quoted ['_', '1', '2', '3'] (by decide) (by decide)

/-! ## Chunk planner (`generate_sql`, src/query_processor.py lines 158-171) -/

/-- `self.MAX_TOKENS` (src/query_processor.py line 19). -/
def MAX_TOKENS : Nat := 4000

/-- `self.TOKENS_PER_TABLE` (src/query_processor.py line 20). -/
def TOKENS_PER_TABLE : Nat := 800

/-- `tables_per_chunk = max(1, self.MAX_TOKENS // self.TOKENS_PER_TABLE)`
(src/query_processor.py line 162). -/
def tables_per_chunk : Nat := max 1 (MAX_TOKENS / TOKENS_PER_TABLE)

/-- Fuel-driven helper for the slicing loop
`for i in range(0, len(validated_tables), tables_per_chunk):
   chunk = validated_tables[i:i + tables_per_chunk]`
(src/query_processor.py lines 170-171).  The fuel is only a structural
termination device; `chunkSlices` supplies enough of it. -/
def chunkSlicesF (k : Nat) {α : Type} : Nat → List α → List (List α)
  | 0, _ => []
  | _ + 1, [] => []
  | f + 1, a :: rest => (a :: rest.take (k - 1)) :: chunkSlicesF k f (rest.drop (k - 1))

/-- Contiguous slices of size `k` (last slice possibly shorter), as produced
by the Python slicing loop for stride `k ≥ 1`. -/
def chunkSlices (k : Nat) {α : Type} (l : List α) : List (List α) :=
  chunkSlicesF k l.length l

/-- The chunk plan of `generate_sql`: a single chunk when the candidate
list fits `tables_per_chunk` (lines 164-165), otherwise the contiguous
slices of the loop at lines 170-171. -/
def plan {α : Type} (candidates : List α) : List (List α) :=
  if candidates.length ≤ tables_per_chunk then [candidates]
  else chunkSlices tables_per_chunk candidates

theorem chunkSlicesF_nil {α : Type} (k f : Nat) :
    chunkSlicesF k f ([] : List α) = [] := by
  match f with
  | 0 => rfl
  | _ + 1 => rfl

theorem chunkSlicesF_fuel_irrel {α : Type} (k : Nat) :
    ∀ (f1 f2 : Nat) (l : List α), l.length ≤ f1 → l.length ≤ f2 →
      chunkSlicesF k f1 l = chunkSlicesF k f2 l := by
  intro f1
  induction f1 with
  | zero =>
    intro f2 l hl _
    rw [Nat.le_zero, List.length_eq_zero] at hl
    subst hl
    rw [chunkSlicesF_nil, chunkSlicesF_nil]
  | succ f ih =>
    intro f2 l hl1 hl2
    match l with
    | [] => rw [chunkSlicesF_nil, chunkSlicesF_nil]
    | a :: rest =>
      match f2 with
      | 0 => simp at hl2
      | g + 1 =>
        rw [chunkSlicesF, chunkSlicesF]
        have hlen : (rest.drop (k - 1)).length ≤ rest.length := by
          rw [List.length_drop]
          omega
        rw [ih g (rest.drop (k - 1))
          (by simp only [List.length_cons] at hl1; omega)
          (by simp only [List.length_cons] at hl2; omega)]

theorem chunkSlices_cons {α : Type} (k : Nat) (a : α) (rest : List α) :
    chunkSlices k (a :: rest) =
      (a :: rest.take (k - 1)) :: chunkSlices k (rest.drop (k - 1)) := by
  rw [chunkSlices, List.length_cons, chunkSlicesF, chunkSlices]
  rw [chunkSlicesF_fuel_irrel k rest.length (rest.drop (k - 1)).length
    (rest.drop (k - 1)) (by rw [List.length_drop]; omega) le_rfl]

/-- The slices concatenate back to the original list: they are contiguous,
non-overlapping and cover every element in order. -/
theorem chunkSlices_join {α : Type} (k : Nat) (l : List α) :
    (chunkSlices k l).flatten = l := by
  have main : ∀ (n : Nat) (l : List α), l.length ≤ n →
      (chunkSlices k l).flatten = l := by
    intro n
    induction n with
    | zero =>
      intro l hl
      rw [Nat.le_zero, List.length_eq_zero] at hl
      subst hl
      rfl
    | succ n ih =>
      intro l hl
      match l with
      | [] => rfl
      | a :: rest =>
        rw [chunkSlices_cons, List.flatten_cons]
        rw [ih (rest.drop (k - 1)) (by
          rw [List.length_drop]
          simp only [List.length_cons] at hl
          omega)]
        simp
  exact main l.length l le_rfl

/-- Every slice is non-empty and no longer than the stride. -/
theorem chunkSlices_length_le {α : Type} (k : Nat) (hk : 1 ≤ k) (l : List α) :
    ∀ c ∈ chunkSlices k l, 0 < c.length ∧ c.length ≤ k := by
  have main : ∀ (n : Nat) (l : List α), l.length ≤ n →
      ∀ c ∈ chunkSlices k l, 0 < c.length ∧ c.length ≤ k := by
    intro n
    induction n with
    | zero =>
      intro l hl c hc
      rw [Nat.le_zero, List.length_eq_zero] at hl
      subst hl
      cases hc
    | succ n ih =>
      intro l hl c hc
      match l with
      | [] => cases hc
      | a :: rest =>
        rw [chunkSlices_cons] at hc
        rcases List.mem_cons.mp hc with hc | hc
        · subst hc
          refine ⟨by simp, ?_⟩
          simp only [List.length_cons, List.length_take]
          omega
        · exact ih (rest.drop (k - 1)) (by
            rw [List.length_drop]
            simp only [List.length_cons] at hl
            omega) c hc
  exact main l.length l le_rfl

/-- Every slice except possibly the last has length exactly the stride. -/
theorem chunkSlices_dropLast_length {α : Type} (k : Nat) (hk : 1 ≤ k)
    (l : List α) :
    ∀ c ∈ (chunkSlices k l).dropLast, c.length = k := by
  have main : ∀ (n : Nat) (l : List α), l.length ≤ n →
      ∀ c ∈ (chunkSlices k l).dropLast, c.length = k := by
    intro n
    induction n with
    | zero =>
      intro l hl c hc
      rw [Nat.le_zero, List.length_eq_zero] at hl
      subst hl
      cases hc
    | succ n ih =>
      intro l hl c hc
      match l with
      | [] => cases hc
      | a :: rest =>
        rw [chunkSlices_cons] at hc
        match hrec : chunkSlices k (rest.drop (k - 1)) with
        | [] => rw [hrec] at hc; cases hc
        | r :: rs =>
          rw [hrec, List.dropLast_cons_of_ne_nil (by simp)] at hc
          rcases List.mem_cons.mp hc with hc | hc
          · subst hc
            have hdrop : rest.drop (k - 1) ≠ [] := by
              intro h
              rw [h] at hrec
              rw [show chunkSlices k ([] : List α) = [] from rfl] at hrec
              cases hrec
            have hklt : k - 1 < rest.length := by
              by_contra h
              exact hdrop (List.drop_eq_nil_of_le (by omega))
            simp only [List.length_cons, List.length_take]
            omega
          · rw [← hrec] at hc
            exact ih (rest.drop (k - 1)) (by
              rw [List.length_drop]
              simp only [List.length_cons] at hl
              omega) c hc
  exact main l.length l le_rfl

/-- Claim C2: `tables_per_chunk = max(1, MAX_TOKENS // TOKENS_PER_TABLE) = 5`;
lists of length at most 5 give a single chunk holding the whole list in
order; longer lists are sliced into contiguous, non-overlapping chunks of
exactly 5 tables except a possibly shorter (non-empty) final one; a list of
length 12 yields chunk sizes `[5, 5, 2]`. -/
theorem C2_chunk_plan :
    tables_per_chunk = 5 ∧
    (∀ {α : Type} (l : List α), l.length ≤ tables_per_chunk → plan l = [l]) ∧
    (∀ {α : Type} (l : List α), tables_per_chunk < l.length →
      (plan l).flatten = l ∧
      (∀ c ∈ (plan l).dropLast, c.length = tables_per_chunk) ∧
      (∀ c ∈ plan l, 0 < c.length ∧ c.length ≤ tables_per_chunk)) ∧
    (plan (List.range 12)).map List.length = [5, 5, 2] := by
  refine ⟨rfl, ?_, ?_, ?_⟩
  · intro α l hl
    rw [plan, if_pos hl]
  · intro α l hl
    rw [plan, if_neg (by omega)]
    exact ⟨chunkSlices_join _ l,
      fun c hc => chunkSlices_dropLast_length _ (by rw [tables_per_chunk]; omega)
        l c hc,
      fun c hc => chunkSlices_length_le _ (by rw [tables_per_chunk]; omega) l c hc⟩
  · rfl

/-- Witness: `C2_chunk_plan` instantiated at lists of length 3 and 12. -/
theorem C2_chunk_plan_witness :
    plan (List.range 3) = [List.range 3] ∧
    (plan (List.range 12)).flatten = List.range 12 := by
  constructor
  · exact C2_chunk_plan.2.1 (List.range 3) (by rw [C2_chunk_plan.1]; simp)
  · exact (C2_chunk_plan.2.2.1 (List.range 12)
      (by rw [C2_chunk_plan.1]; simp)).1

/-! ## Best-candidate selection (`generate_sql`, lines 167-180)

The loop
```
best_query = None
highest_confidence = 0
for i in range(0, len(validated_tables), tables_per_chunk):
    chunk = validated_tables[i:i + tables_per_chunk]
    proposed_query = self.process_schema_chunk(chunk, query)
    confidence = self.evaluate_query_confidence(proposed_query, query, chunk)
    if confidence > highest_confidence:
        best_query = proposed_query
        highest_confidence = confidence
return best_query
```
is modelled over the already-planned chunk list, with the external
completion calls abstracted as `gen` (candidate SQL per chunk) and `conf`
(evaluated confidence).  Confidence values are modelled in `ℚ`, which for
the comparison logic agrees with Python floats. -/

/-- One iteration of the selection loop: update the running best only on a
strictly greater confidence. -/
def select_step {α : Type} (gen : α → String) (conf : String → α → ℚ)
    (acc : Option String × ℚ) (chunk : α) : Option String × ℚ :=
  if acc.2 < conf (gen chunk) chunk then (some (gen chunk), conf (gen chunk) chunk)
  else acc

/-- The selection loop of `generate_sql` over its chunk list: running best
starts at `(None, 0)` and the final `best_query` is returned. -/
def select_best {α : Type} (chunks : List α) (gen : α → String)
    (conf : String → α → ℚ) : Option String :=
  (chunks.foldl (select_step gen conf) ((none : Option String), (0 : ℚ))).1

/-- Claim C3: with chunk confidences `[0.3, 0.9, 0.9]` the selection keeps
the candidate of the first chunk reaching `0.9`: the strict `>` comparison
never replaces the running best on a tie. -/
theorem C3_select_best_tie {α : Type} (gen : α → String)
    (conf : String → α → ℚ) (c1 c2 c3 : α)
    (h1 : conf (gen c1) c1 = 3/10)
    (h2 : conf (gen c2) c2 = 9/10)
    (h3 : conf (gen c3) c3 = 9/10) :
    select_best [c1, c2, c3] gen conf = some (gen c2) := by
  have s1 : select_step gen conf (none, 0) c1 = (some (gen c1), conf (gen c1) c1) := by
    rw [select_step, if_pos]
    rw [h1]
    norm_num
  have s2 : select_step gen conf (some (gen c1), conf (gen c1) c1) c2 =
      (some (gen c2), conf (gen c2) c2) := by
    rw [select_step, if_pos]
    rw [h1, h2]
    norm_num
  have s3 : select_step gen conf (some (gen c2), conf (gen c2) c2) c3 =
      (some (gen c2), conf (gen c2) c2) := by
    rw [select_step, if_neg]
    rw [h2, h3]
    norm_num
  rw [select_best, List.foldl_cons, s1, List.foldl_cons, s2, List.foldl_cons,
    s3, List.foldl_nil]

/-- Witness: `C3_select_best_tie` at a concrete generator and evaluator. -/
theorem C3_select_best_tie_witness :
    select_best [1, 2, 3] (fun n => if n = 1 then "q1" else if n = 2 then "q2" else "q3")
      (fun _ n => if n = 1 then 3/10 else 9/10) = some "q2" := by
  exact C3_select_best_tie _ _ 1 2 3 (by norm_num) (by norm_num) (by norm_num)

/-- Claim C4: when every chunk's confidence is at most 0, the loop never
updates the running best and `generate_sql` returns `None` (no usable
query), the fatal generation-failure condition. -/
theorem C4_select_best_none {α : Type} (chunks : List α) (gen : α → String)
    (conf : String → α → ℚ)
    (h : ∀ c ∈ chunks, conf (gen c) c ≤ 0) :
    select_best chunks gen conf = none := by
  have : ∀ l : List α, (∀ c ∈ l, conf (gen c) c ≤ 0) →
      l.foldl (select_step gen conf) ((none : Option String), (0 : ℚ)) =
        (none, 0) := by
    intro l
    induction l with
    | nil => intro _; rfl
    | cons a t ih =>
      intro hl
      rw [List.foldl_cons]
      rw [show select_step gen conf (none, 0) a = (none, 0) by
        rw [select_step]
        simp only
        rw [if_neg (by
          have := hl a (List.mem_cons_self a t)
          simp only [not_lt]
          exact this)]]
      exact ih fun c hc => hl c (List.mem_cons_of_mem a hc)
  rw [select_best, this chunks h]

/-- Witness: `C4_select_best_none` at a concrete two-chunk run whose
confidences are 0 and -1/2. -/
theorem C4_select_best_none_witness :
    select_best [1, 2] (fun n => if n = 1 then "q1" else "q2")
      (fun _ n => if n = 1 then 0 else -1/2) = none := by
  apply C4_select_best_none
  intro c hc
  rcases List.mem_cons.mp hc with hc | hc
  · subst hc; norm_num
  · rcases List.mem_cons.mp hc with hc | hc
    · subst hc; norm_num
    · cases hc

/-! ## Table relevance selection (`validate_tables`, lines 70-97)

`validate_tables` sends a prompt and parses the completion response with
```
validated_tables = response.choices[0].message.content.strip().split(',')
return [table for table in relevant_tables
        if table['table_name'] in validated_tables]
```
The external completion call is abstracted by passing the response text. -/

/-- A candidate table as consumed by `validate_tables`: the dictionary keys
actually read are `table_name` and (only for prompt building)
`similarity_score` and `description`. -/
structure TableCandidate where
  table_name : String
  description : String
  similarity_score : ℚ
deriving DecidableEq

/-- Python `str.split(',')`: split at every comma, keeping empty pieces. -/
def splitComma : List Char → List (List Char)
  | [] => [[]]
  | c :: rest =>
    if c = ',' then [] :: splitComma rest
    else
      match splitComma rest with
      | [] => [[c]]
      | g :: gs => (c :: g) :: gs

/-- `response.choices[0].message.content.strip().split(',')`
(src/query_processor.py line 92): the whole response is stripped, then
split on commas; the individual pieces are not trimmed. -/
def parse_validated (response : String) : List String :=
  (splitComma (pyStrip response.data)).map String.mk

/-- `validate_tables` (src/query_processor.py lines 94-97): keep exactly the
candidates whose `table_name` occurs verbatim among the comma-separated
pieces of the response. -/
def validate_tables (relevant : List TableCandidate) (response : String) :
    List TableCandidate :=
  relevant.filter (fun t => (parse_validated response).contains t.table_name)

/-- Modelled from the spec's words for comparison (claim C8 describes the
parse as "splitting on commas and trimming whitespace around each name"):
same filter, but with each comma-separated piece stripped. -/
def validate_tables_trimmed (relevant : List TableCandidate)
    (response : String) : List TableCandidate :=
  relevant.filter (fun t =>
    ((parse_validated response).map (fun s => String.mk (pyStrip s.data))).contains
      t.table_name)

theorem contains_iff_mem {α : Type} [BEq α] [LawfulBEq α] {l : List α}
    {a : α} : l.contains a = true ↔ a ∈ l := List.elem_iff

/-- Counterexample for claim C8: the code does not trim whitespace around
the comma-separated names.  For the response `"Customers, Orders"` the
candidate `Orders` is dropped by `validate_tables` (its name is compared
against `" Orders"`), while the trimming parse described by the claim
would retain it. -/
theorem C8_counterexample :
    validate_tables [⟨"Orders", "", 0⟩] "Customers, Orders" = [] ∧
    validate_tables_trimmed [⟨"Orders", "", 0⟩] "Customers, Orders" =
      [⟨"Orders", "", 0⟩] ∧
    parse_validated "Customers, Orders" = ["Customers", " Orders"] := by
  exact ⟨by decide, by decide, by decide⟩

/-- Claim C8 (amended): the response is split on commas with no per-name
trimming (only the response as a whole is stripped); the result contains
exactly the candidates whose `table_name` occurs verbatim (exact case)
among the pieces, in the original list's order with original scores
(the result is a sublist of the input), and only membership in the parsed
name set matters — the model's output order has no effect. -/
theorem C8_validate_tables_filter :
    (∀ (relevant : List TableCandidate) (response : String),
      (validate_tables relevant response).Sublist relevant) ∧
    (∀ (relevant : List TableCandidate) (response : String)
      (t : TableCandidate),
      t ∈ validate_tables relevant response ↔
        t ∈ relevant ∧ t.table_name ∈ parse_validated response) ∧
    (∀ (relevant : List TableCandidate) (r1 r2 : String),
      (∀ s, s ∈ parse_validated r1 ↔ s ∈ parse_validated r2) →
      validate_tables relevant r1 = validate_tables relevant r2) := by
  refine ⟨?_, ?_, ?_⟩
  · intro relevant response
    exact List.filter_sublist relevant
  · intro relevant response t
    rw [validate_tables, List.mem_filter]
    exact and_congr_right fun _ => contains_iff_mem
  · intro relevant r1 r2 h
    rw [validate_tables, validate_tables]
    apply List.filter_congr
    intro t _
    apply Bool.coe_iff_coe.mp
    rw [contains_iff_mem, contains_iff_mem]
    exact h t.table_name

/-- Witness: `C8_validate_tables_filter` at concrete candidates and
responses, including two responses whose name sets agree but whose order
differs. -/
theorem C8_validate_tables_filter_witness :
    (⟨"Orders", "", 0⟩ ∈ validate_tables
        [⟨"Customers", "", 0⟩, ⟨"Orders", "", 0⟩] "Orders" ↔
      ⟨"Orders", "", 0⟩ ∈
          ([⟨"Customers", "", 0⟩, ⟨"Orders", "", 0⟩] : List TableCandidate) ∧
        "Orders" ∈ parse_validated "Orders") ∧
    validate_tables [⟨"Customers", "", 0⟩, ⟨"Orders", "", 0⟩]
        "Customers,Orders" =
      validate_tables [⟨"Customers", "", 0⟩, ⟨"Orders", "", 0⟩]
        "Orders,Customers" := by
  constructor
  · exact C8_validate_tables_filter.2.1 _ "Orders" _
  · exact C8_validate_tables_filter.2.2 _ "Customers,Orders" "Orders,Customers"
      (by
        intro s
        rw [show parse_validated "Customers,Orders" = ["Customers", "Orders"]
            from by decide,
          show parse_validated "Orders,Customers" = ["Orders", "Customers"]
            from by decide]
        simp only [List.mem_cons, List.not_mem_nil, or_false]
        exact or_comm)

/-! ## Confidence evaluation (`evaluate_query_confidence`, lines 182-213)

```
try:
    return float(response.choices[0].message.content.strip())
except ValueError:
    return 0.0
```
The external completion call is abstracted by passing the response text.
`float(s)` is modelled as exact-rational parsing of finite decimal
literals (optional sign, digits with optional decimal point, optional
signed exponent).  Python additionally accepts `inf`/`nan` spellings and
underscore digit separators, and rounds the value to IEEE-754 double
precision; none of those arise for confidence scores and they are not
modelled. -/

/-- Value of a run of decimal digits. -/
def digitsToNat (l : List Char) : Nat :=
  l.foldl (fun acc c => 10 * acc + (c.toNat - 48)) 0

/-- Optional leading sign; returns whether the value is negated and the
remaining characters. -/
def parseSign : List Char → Bool × List Char
  | '+' :: t => (false, t)
  | '-' :: t => (true, t)
  | t => (false, t)

/-- Exact value of a signed mantissa `ip.fp` as an integer numerator and a
power-of-ten denominator (kept unreduced). -/
def floatMant (neg : Bool) (ip fp : List Char) : Int × Nat :=
  ((if neg then -1 else 1) * (digitsToNat ip * 10 ^ fp.length + digitsToNat fp),
    10 ^ fp.length)

/-- Parse the optional exponent part after the mantissa; anything left over
makes the whole literal invalid. -/
def floatFinish (neg : Bool) (ip fp rest : List Char) : Option (Int × Nat) :=
  match rest with
  | [] => some (floatMant neg ip fp)
  | e :: t =>
    if (e = 'e' ∨ e = 'E') ∧ (parseSign t).2.takeWhile Char.isDigit ≠ [] ∧
        (parseSign t).2.dropWhile Char.isDigit = [] then
      let ev := digitsToNat ((parseSign t).2.takeWhile Char.isDigit)
      if (parseSign t).1 then
        some ((floatMant neg ip fp).1, (floatMant neg ip fp).2 * 10 ^ ev)
      else
        some ((floatMant neg ip fp).1 * 10 ^ ev, (floatMant neg ip fp).2)
    else none

/-- Python `float(s)` on a finite decimal literal, returning the exact
value as a numerator/denominator pair, or `none` when `float` raises
`ValueError`. -/
def pyFloatParse (l : List Char) : Option (Int × Nat) :=
  match (parseSign l).2.dropWhile Char.isDigit with
  | '.' :: t =>
    if (parseSign l).2.takeWhile Char.isDigit = [] ∧
        t.takeWhile Char.isDigit = [] then none
    else floatFinish (parseSign l).1 ((parseSign l).2.takeWhile Char.isDigit)
      (t.takeWhile Char.isDigit) (t.dropWhile Char.isDigit)
  | r =>
    if (parseSign l).2.takeWhile Char.isDigit = [] then none
    else floatFinish (parseSign l).1 ((parseSign l).2.takeWhile Char.isDigit) [] r

/-- `evaluate_query_confidence` (src/query_processor.py lines 205-213):
strip the response, parse it as a float, and fall back to `0.0` on any
parse failure. -/
def evaluate_query_confidence (response : String) : ℚ :=
  match pyFloatParse (pyStrip response.data) with
  | some (n, d) => Rat.divInt n d
  | none => 0

/-- Claim C9: any response that does not parse as a float yields confidence
`0.0` instead of an error escaping the boundary; numeric responses yield
their value. -/
theorem C9_confidence_parse :
    (∀ response : String, pyFloatParse (pyStrip response.data) = none →
      evaluate_query_confidence response = 0) ∧
    evaluate_query_confidence "0.9" = 9/10 ∧
    evaluate_query_confidence " 0.75 " = 3/4 ∧
    evaluate_query_confidence "high confidence" = 0 ∧
    evaluate_query_confidence "" = 0 := by
  refine ⟨?_, ?_, ?_, ?_, ?_⟩
  · intro response h
    rw [evaluate_query_confidence, h]
  · rw [evaluate_query_confidence,
      show pyFloatParse (pyStrip "0.9".data) = some (9, 10) from by decide]
    norm_num [Rat.divInt_eq_div]
  · rw [evaluate_query_confidence,
      show pyFloatParse (pyStrip " 0.75 ".data) = some (75, 100) from by decide]
    norm_num [Rat.divInt_eq_div]
  · rw [evaluate_query_confidence,
      show pyFloatParse (pyStrip "high confidence".data) = none from by decide]
  · rw [evaluate_query_confidence,
      show pyFloatParse (pyStrip "".data) = none from by decide]

/-- Witness: the universal part of `C9_confidence_parse` applied to the
concrete non-numeric response `"not a score"`. -/
theorem C9_confidence_parse_witness :
    evaluate_query_confidence "not a score" = 0 := by
  exact C9_confidence_parse.1 "not a score" (by decide)

/-! ## Identifier normalisation (`_process_sql_query`, lines 54-68)

```
table_case_map = {name.lower(): name for name in table_names}
table_pattern = r'\b(FROM|JOIN|UPDATE|INTO|TABLE)\s+([a-zA-Z_][a-zA-Z0-9_]*)\b'
def replace_table_name(match):
    keyword = match.group(1)
    table_name = match.group(2)
    original_case = table_case_map.get(table_name.lower(), table_name)
    quoted_name = self._quote_identifier(original_case)
    return f"{keyword} {quoted_name}"
processed_query = re.sub(table_pattern, replace_table_name, sql_query,
                         flags=re.IGNORECASE)
```

`re.sub` scans left to right: at each position it tries to match the
pattern, emitting the replacement and resuming after the match on success,
otherwise copying one character.  A match at a position requires_
a word boundary (the previous character is not a word character), one of
the five keywords case-insensitively, at least one whitespace character,
and a maximal word-character run starting with `[a-zA-Z_]` (the trailing
`\b` is automatic for ASCII text because the run is maximal).  The
replacement keeps the keyword as matched, collapses the whitespace to one
space, and substitutes the quoted stored-case name. -/

/-- The keyword alternation `(FROM|JOIN|UPDATE|INTO|TABLE)`. -/
def KEYWORDS : List (List Char) :=
  ["FROM", "JOIN", "UPDATE", "INTO", "TABLE"].map String.data

/-- Try the keyword alternatives in order at the start of `s`
(case-insensitively); return the matched text as it appears and the rest. -/
def matchKeywordAux : List (List Char) → List Char → Option (List Char × List Char)
  | [], _ => none
  | k :: ks, s =>
    if (s.take k.length).map Char.toUpper = k then
      some (s.take k.length, s.drop k.length)
    else matchKeywordAux ks s

/-- Match one of the five keywords at the start of `s`. -/
def matchKeyword (s : List Char) : Option (List Char × List Char) :=
  matchKeywordAux KEYWORDS s

/-- `table_case_map.get(key, ...)` for
`table_case_map = {name.lower(): name for name in table_names}`: the last
name in the list whose lowercase form equals the key (later dict entries
overwrite earlier ones). -/
def table_case_map_get (tns : List (List Char)) (key : List Char) :
    Option (List Char) :=
  tns.reverse.find? (fun n => pyLower n == key)

/-- The body of `replace_table_name` after the keyword: look up the stored
case of the matched identifier (defaulting to the identifier itself) and
quote it. -/
def replaceName (tns : List (List Char)) (ident : List Char) : List Char :=
  quote_identifier ((table_case_map_get tns (pyLower ident)).getD ident)

/-- After keyword and whitespace: `[a-zA-Z_][a-zA-Z0-9_]*\b` must match at
`r2`, the maximal word run is the identifier, and the replacement is
`keyword + " " + quoted stored-case name`. -/
def tryMatchIdent (tns : List (List Char)) (kw : List Char) :
    List Char → Option (List Char × List Char)
  | [] => none
  | d :: r2' =>
    if isIdentStart d then
      some (kw ++ ' ' :: replaceName tns ((d :: r2').takeWhile isWordChar),
            (d :: r2').dropWhile isWordChar)
    else none

/-- After the keyword: `\s+` must be non-empty, then the identifier part
follows at the first non-whitespace character. -/
def tryMatchTail (tns : List (List Char)) (kw r1 : List Char) :
    Option (List Char × List Char) :=
  if r1.takeWhile isPySpace = [] then none
  else tryMatchIdent tns kw (r1.dropWhile isPySpace)

/-- Try to match `table_pattern` at the start of `s`; `prevWord` says
whether the character before `s` (in the original text) is a word
character, deciding the leading `\b`.  On success, return the replacement
text and the rest of the input after the match. -/
def tryMatch (tns : List (List Char)) (s : List Char) (prevWord : Bool) :
    Option (List Char × List Char) :=
  if prevWord then none
  else
    match matchKeyword s with
    | none => none
    | some (kw, r1) => tryMatchTail tns kw r1

/-- The `re.sub` scan, fuelled for structural termination (each step either
copies one character or consumes a whole match, so `s.length` fuel always
suffices; see `subScanF_fuel_irrel`). -/
def subScanF (tns : List (List Char)) : Nat → List Char → Bool → List Char
  | 0, s, _ => s
  | _ + 1, [], _ => []
  | f + 1, c :: rest, prevWord =>
    match tryMatch tns (c :: rest) prevWord with
    | some (repl, rem) => repl ++ subScanF tns f rem true
    | none => c :: subScanF tns f rest (isWordChar c)

/-- The `re.sub` scan of `_process_sql_query` over the remaining input;
`prevWord` is the word-character status of the previous character. -/
def subScan (tns : List (List Char)) (s : List Char) (prevWord : Bool) :
    List Char :=
  subScanF tns s.length s prevWord

/-- `QueryProcessor._process_sql_query` (src/query_processor.py
lines 54-68). -/
def process_sql_query (sql : String) (table_names : List String) : String :=
  String.mk (subScan (table_names.map String.data) sql.data false)

/-- Counterexample for claim C7: an identifier following `FROM` that is
not a known table is not left as-is: it is still passed through
`_quote_identifier`, so `FROM Alias` (no known tables) becomes
`FROM "Alias"`. -/
theorem C7_counterexample :
    process_sql_query "SELECT * FROM Alias" [] = "SELECT * FROM \"Alias\"" ∧
    process_sql_query "SELECT * FROM Alias" [] ≠ "SELECT * FROM Alias" := by
  exact ⟨by decide, by decide⟩

/-! ### Facts about the keyword matcher -/

theorem keywords_facts :
    ∀ k ∈ KEYWORDS, 4 ≤ k.length ∧ k.length ≤ 6 ∧ ∀ c ∈ k, c.isAlpha = true := by
  decide

theorem matchKeywordAux_inv :
    ∀ (ks : List (List Char)) (s kw r : List Char),
      matchKeywordAux ks s = some (kw, r) →
      s = kw ++ r ∧ kw.map Char.toUpper ∈ ks := by
  intro ks
  induction ks with
  | nil =>
    intro s kw r h
    exact absurd h (by rw [matchKeywordAux]; exact Option.noConfusion)
  | cons k ks ih =>
    intro s kw r h
    rw [matchKeywordAux] at h
    by_cases hk : (s.take k.length).map Char.toUpper = k
    · rw [if_pos hk, Option.some_inj, Prod.mk.injEq] at h
      obtain ⟨h1, h2⟩ := h
      refine ⟨?_, ?_⟩
      · rw [← h1, ← h2, List.take_append_drop]
      · rw [h1] at hk
        rw [hk]
        exact List.mem_cons_self k ks
    · rw [if_neg hk] at h
      obtain ⟨h1, h2⟩ := ih s kw r h
      exact ⟨h1, List.mem_cons_of_mem k h2⟩

theorem matchKeyword_inv {s kw r : List Char}
    (h : matchKeyword s = some (kw, r)) :
    s = kw ++ r ∧ pyUpper kw ∈ KEYWORDS :=
  matchKeywordAux_inv KEYWORDS s kw r h

theorem alpha_of_toUpper_alpha {c : Char}
    (h : (Char.toUpper c).isAlpha = true) : c.isAlpha = true := by
  rw [alpha_toNat_iff] at h ⊢
  rw [toNat_toUpper] at h
  split_ifs at h <;> omega

theorem keyword_chars_alpha {kw : List Char} (h : pyUpper kw ∈ KEYWORDS) :
    ∀ c ∈ kw, c.isAlpha = true := by
  intro c hc
  apply alpha_of_toUpper_alpha
  exact (keywords_facts (pyUpper kw) h).2.2 (Char.toUpper c)
    (List.mem_map_of_mem Char.toUpper hc)

theorem keyword_length {kw : List Char} (h : pyUpper kw ∈ KEYWORDS) :
    4 ≤ kw.length ∧ kw.length ≤ 6 := by
  have := keywords_facts (pyUpper kw) h
  rw [pyUpper, List.length_map] at this
  exact ⟨this.1, this.2.1⟩

theorem matchKeyword_head_alpha {c : Char} {t kw r : List Char}
    (h : matchKeyword (c :: t) = some (kw, r)) : c.isAlpha = true := by
  obtain ⟨heq, hmem⟩ := matchKeyword_inv h
  match kw, heq with
  | [], heq =>
    have := (keyword_length hmem).1
    simp at this
  | k0 :: kw', heq =>
    rw [List.cons_append] at heq
    injection heq with h0 _
    rw [h0]
    exact keyword_chars_alpha hmem k0 (List.mem_cons_self k0 kw')

theorem matchKeyword_none_of_not_alpha {c : Char} {t : List Char}
    (h : c.isAlpha = false) : matchKeyword (c :: t) = none := by
  cases hm : matchKeyword (c :: t) with
  | none => rfl
  | some p =>
    obtain ⟨kw, r⟩ := p
    rw [matchKeyword_head_alpha hm] at h
    exact Bool.noConfusion h

theorem matchKeywordAux_append {ks : List (List Char)}
    (hks : ∀ k ∈ ks, k.length ≤ 6) {a : List Char} (ha : 6 ≤ a.length)
    (x : List Char) :
    matchKeywordAux ks (a ++ x) =
      (matchKeywordAux ks a).map (fun p => (p.1, p.2 ++ x)) := by
  induction ks with
  | nil => rfl
  | cons k ks ih =>
    rw [matchKeywordAux, matchKeywordAux]
    have hlen : k.length ≤ a.length :=
      le_trans (hks k (List.mem_cons_self k ks)) ha
    have htake : (a ++ x).take k.length = a.take k.length := by
      rw [List.take_append_eq_append_take, Nat.sub_eq_zero_of_le hlen,
        List.take_zero, List.append_nil]
    have hdrop : (a ++ x).drop k.length = a.drop k.length ++ x := by
      rw [List.drop_append_eq_append_drop, Nat.sub_eq_zero_of_le hlen,
        List.drop_zero]
    rw [htake, hdrop]
    by_cases hk : (a.take k.length).map Char.toUpper = k
    · rw [if_pos hk, if_pos hk, Option.map_some']
    · rw [if_neg hk, if_neg hk]
      exact ih fun k' hk' => hks k' (List.mem_cons_of_mem k hk')

theorem matchKeyword_append {a : List Char} (ha : 6 ≤ a.length)
    (x : List Char) :
    matchKeyword (a ++ x) =
      (matchKeyword a).map (fun p => (p.1, p.2 ++ x)) :=
  matchKeywordAux_append (by decide) ha x

theorem KEYWORDS_eq :
    KEYWORDS = [['F', 'R', 'O', 'M'], ['J', 'O', 'I', 'N'],
      ['U', 'P', 'D', 'A', 'T', 'E'], ['I', 'N', 'T', 'O'],
      ['T', 'A', 'B', 'L', 'E']] := by
  decide

/-- A keyword followed by a space matches the alternation exactly as
itself: no other alternative can fire (the keywords have pairwise distinct
first letters and the following space is not a keyword letter). -/
theorem matchKeyword_keyword_space {kw : List Char} (w : List Char)
    (h : pyUpper kw ∈ KEYWORDS) :
    matchKeyword (kw ++ ' ' :: w) = some (kw, ' ' :: w) := by
  have h5 : pyUpper kw = ['F', 'R', 'O', 'M'] ∨
      pyUpper kw = ['J', 'O', 'I', 'N'] ∨
      pyUpper kw = ['U', 'P', 'D', 'A', 'T', 'E'] ∨
      pyUpper kw = ['I', 'N', 'T', 'O'] ∨
      pyUpper kw = ['T', 'A', 'B', 'L', 'E'] := by
    rw [KEYWORDS_eq] at h
    simpa using h
  rcases h5 with hc | hc | hc | hc | hc
  · -- kw is FROM
    have hlen : kw.length = (['F', 'R', 'O', 'M'] : List Char).length := by
      have := congrArg List.length hc
      rw [pyUpper, List.length_map] at this
      exact this
    rw [matchKeyword, KEYWORDS_eq, matchKeywordAux,
      List.take_left' hlen, List.drop_left' hlen,
      if_pos (show List.map Char.toUpper kw = _ from hc)]
  · -- kw is JOIN
    have hlen : kw.length = (['J', 'O', 'I', 'N'] : List Char).length := by
      have := congrArg List.length hc
      rw [pyUpper, List.length_map] at this
      exact this
    have hlen4 : kw.length = (['F', 'R', 'O', 'M'] : List Char).length := hlen
    rw [matchKeyword, KEYWORDS_eq, matchKeywordAux,
      List.take_left' hlen4,
      if_neg (show ¬ List.map Char.toUpper kw = _ by rw [show List.map Char.toUpper kw = pyUpper kw from rfl, hc]; decide),
      matchKeywordAux, List.take_left' hlen, List.drop_left' hlen,
      if_pos (show List.map Char.toUpper kw = _ from hc)]
  · -- kw is UPDATE
    have hlen : kw.length = (['U', 'P', 'D', 'A', 'T', 'E'] : List Char).length := by
      have := congrArg List.length hc
      rw [pyUpper, List.length_map] at this
      exact this
    have htake4 : ∀ n : Nat, n ≤ 4 →
        (kw ++ ' ' :: w).take n = kw.take n := by
      intro n hn
      rw [List.take_append_eq_append_take,
        Nat.sub_eq_zero_of_le (by rw [hlen]; simp only [List.length_cons, List.length_nil]; omega), List.take_zero,
        List.append_nil]
    have hcond4 : ∀ K : List Char, K.length ≤ 4 →
        List.map Char.toUpper ((kw ++ ' ' :: w).take K.length) =
          (pyUpper kw).take K.length := by
      intro K hK
      rw [htake4 K.length hK, List.map_take]
      rfl
    rw [matchKeyword, KEYWORDS_eq, matchKeywordAux,
      if_neg (by rw [hcond4 _ (by decide), hc]; decide),
      matchKeywordAux,
      if_neg (by rw [hcond4 _ (by decide), hc]; decide),
      matchKeywordAux, List.take_left' hlen, List.drop_left' hlen,
      if_pos (show List.map Char.toUpper kw = _ from hc)]
  · -- kw is INTO
    have hlen : kw.length = (['I', 'N', 'T', 'O'] : List Char).length := by
      have := congrArg List.length hc
      rw [pyUpper, List.length_map] at this
      exact this
    have hlen4 : kw.length = (['F', 'R', 'O', 'M'] : List Char).length := hlen
    have hlenJ : kw.length = (['J', 'O', 'I', 'N'] : List Char).length := hlen
    have htake6 : (kw ++ ' ' :: w).take 6 = kw ++ [' '] ++ w.take 1 := by
      rw [List.take_append_eq_append_take,
        show (6 : Nat) - kw.length = 2 by rw [hlen]; rfl,
        List.take_of_length_le (by rw [hlen]; simp only [List.length_cons, List.length_nil]; omega),
        show List.take 2 (' ' :: w) = ' ' :: w.take 1 from rfl,
        List.append_assoc]
      rfl
    rw [matchKeyword, KEYWORDS_eq, matchKeywordAux,
      List.take_left' hlen4,
      if_neg (show ¬ List.map Char.toUpper kw = _ by rw [show List.map Char.toUpper kw = pyUpper kw from rfl, hc]; decide),
      matchKeywordAux, List.take_left' hlenJ,
      if_neg (show ¬ List.map Char.toUpper kw = _ by rw [show List.map Char.toUpper kw = pyUpper kw from rfl, hc]; decide),
      matchKeywordAux,
      if_neg (by
        rw [show (['U', 'P', 'D', 'A', 'T', 'E'] : List Char).length = 6 from rfl,
          htake6, List.append_assoc, List.map_append,
          show List.map Char.toUpper kw = pyUpper kw from rfl, hc]
        intro habs
        have := congrArg (fun l => l.take 4) habs
        simp at this),
      matchKeywordAux, List.take_left' hlen, List.drop_left' hlen,
      if_pos (show List.map Char.toUpper kw = _ from hc)]
  · -- kw is TABLE
    have hlen : kw.length = (['T', 'A', 'B', 'L', 'E'] : List Char).length := by
      have := congrArg List.length hc
      rw [pyUpper, List.length_map] at this
      exact this
    have htake4 : ∀ n : Nat, n ≤ 5 →
        (kw ++ ' ' :: w).take n = kw.take n := by
      intro n hn
      rw [List.take_append_eq_append_take,
        Nat.sub_eq_zero_of_le (by rw [hlen]; simp only [List.length_cons, List.length_nil]; omega), List.take_zero,
        List.append_nil]
    have hcond4 : ∀ K : List Char, K.length ≤ 5 →
        List.map Char.toUpper ((kw ++ ' ' :: w).take K.length) =
          (pyUpper kw).take K.length := by
      intro K hK
      rw [htake4 K.length hK, List.map_take]
      rfl
    have htake6 : (kw ++ ' ' :: w).take 6 = kw ++ [' '] ++ w.take 0 := by
      rw [List.take_append_eq_append_take,
        show (6 : Nat) - kw.length = 1 by rw [hlen]; rfl,
        List.take_of_length_le (by rw [hlen]; simp only [List.length_cons, List.length_nil]; omega),
        show List.take 1 (' ' :: w) = ' ' :: w.take 0 from rfl,
        List.append_assoc]
      rfl
    rw [matchKeyword, KEYWORDS_eq, matchKeywordAux,
      if_neg (by rw [hcond4 _ (by decide), hc]; decide),
      matchKeywordAux,
      if_neg (by rw [hcond4 _ (by decide), hc]; decide),
      matchKeywordAux,
      if_neg (by
        rw [show (['U', 'P', 'D', 'A', 'T', 'E'] : List Char).length = 6 from rfl,
          htake6, List.append_assoc, List.map_append,
          show List.map Char.toUpper kw = pyUpper kw from rfl, hc]
        intro habs
        have := congrArg (fun l => l.take 5) habs
        simp at this),
      matchKeywordAux,
      if_neg (by rw [hcond4 _ (by decide), hc]; decide),
      matchKeywordAux, List.take_left' hlen, List.drop_left' hlen,
      if_pos (show List.map Char.toUpper kw = _ from hc)]

/-! ### Facts about `tryMatch` -/

theorem tryMatch_true {tns : List (List Char)} {s : List Char} :
    tryMatch tns s true = none := by
  rw [tryMatch, if_pos rfl]

theorem tryMatch_of_matchKeyword_none {tns : List (List Char)} {s : List Char}
    (hm : matchKeyword s = none) (b : Bool) : tryMatch tns s b = none := by
  cases b
  · rw [tryMatch, if_neg Bool.false_ne_true, hm]
  · exact tryMatch_true

theorem tryMatch_of_matchKeyword_some {tns : List (List Char)}
    {s kw r1 : List Char} (hm : matchKeyword s = some (kw, r1)) :
    tryMatch tns s false = tryMatchTail tns kw r1 := by
  rw [tryMatch, if_neg Bool.false_ne_true, hm]

theorem tryMatch_not_alpha {tns : List (List Char)} {c : Char}
    {t : List Char} (h : c.isAlpha = false) (b : Bool) :
    tryMatch tns (c :: t) b = none :=
  tryMatch_of_matchKeyword_none (matchKeyword_none_of_not_alpha h) b

theorem tryMatch_not_word {tns : List (List Char)} {c : Char}
    {t : List Char} (h : isWordChar c = false) (b : Bool) :
    tryMatch tns (c :: t) b = none :=
  tryMatch_not_alpha (not_alpha_not_word h) b

/-- Inversion for a successful match: the input decomposes into keyword,
whitespace, maximal identifier and rest, and the replacement is the
keyword, one space, and the substituted name. -/
theorem tryMatch_inv {tns : List (List Char)} {s : List Char} {b : Bool}
    {repl rem : List Char} (h : tryMatch tns s b = some (repl, rem)) :
    b = false ∧
    ∃ kw ws d idt,
      s = kw ++ ws ++ (d :: idt) ++ rem ∧
      matchKeyword s = some (kw, ws ++ (d :: idt) ++ rem) ∧
      pyUpper kw ∈ KEYWORDS ∧
      ws ≠ [] ∧ (∀ c ∈ ws, isPySpace c = true) ∧
      isIdentStart d = true ∧ (∀ c ∈ d :: idt, isWordChar c = true) ∧
      (rem = [] ∨ ∃ e t', rem = e :: t' ∧ isWordChar e = false) ∧
      repl = kw ++ ' ' :: replaceName tns (d :: idt) := by
  cases b
  case true =>
    rw [tryMatch_true] at h
    exact absurd h (by exact Option.noConfusion)
  refine ⟨rfl, ?_⟩
  cases hm : matchKeyword s with
  | none =>
    rw [tryMatch_of_matchKeyword_none hm] at h
    exact absurd h (by exact Option.noConfusion)
  | some p =>
    obtain ⟨kw, r1⟩ := p
    rw [tryMatch_of_matchKeyword_some hm] at h
    unfold tryMatchTail at h
    by_cases hws : r1.takeWhile isPySpace = []
    · rw [if_pos hws] at h
      exact absurd h (by exact Option.noConfusion)
    rw [if_neg hws] at h
    cases hdw : r1.dropWhile isPySpace with
    | nil =>
      rw [hdw, tryMatchIdent] at h
      exact absurd h (by exact Option.noConfusion)
    | cons d r2' =>
      rw [hdw, tryMatchIdent] at h
      by_cases hd : isIdentStart d = true
      · rw [if_pos hd, Option.some_inj, Prod.mk.injEq] at h
        obtain ⟨hrepl, hrem⟩ := h
        obtain ⟨hs, hmem⟩ := matchKeyword_inv hm
        have hword : ∀ c ∈ (d :: r2').takeWhile isWordChar,
            isWordChar c = true := fun c hc => List.mem_takeWhile_imp hc
        have htw : (d :: r2').takeWhile isWordChar =
            d :: r2'.takeWhile isWordChar :=
          List.takeWhile_cons_of_pos (identStart_word hd)
        have hstep : (d :: r2') =
            (d :: r2'.takeWhile isWordChar) ++ rem := by
          rw [← hrem, ← htw]
          exact (List.takeWhile_append_dropWhile _ _).symm
        have key : r1 =
            (r1.takeWhile isPySpace ++ (d :: r2'.takeWhile isWordChar)) ++
              rem := by
          conv_lhs => rw [← List.takeWhile_append_dropWhile isPySpace r1,
            hdw, hstep]
          rw [← List.append_assoc]
        refine ⟨kw, r1.takeWhile isPySpace, d, r2'.takeWhile isWordChar,
          ?_, ?_, hmem, hws, fun c hc => List.mem_takeWhile_imp hc, hd,
          ?_, ?_, ?_⟩
        · rw [hs]
          nth_rewrite 1 [key]
          simp [List.append_assoc]
        · rw [Option.some_inj, Prod.mk.injEq]
          exact ⟨rfl, key⟩
        · intro c hc
          apply hword
          rw [htw]
          exact hc
        · rw [← hrem]
          cases hrm : (d :: r2').dropWhile isWordChar with
          | nil => exact Or.inl rfl
          | cons e t' =>
            exact Or.inr ⟨e, t', rfl, dropWhile_head_false hrm⟩
        · rw [← hrepl, htw]
      · rw [if_neg hd] at h
        exact absurd h (by exact Option.noConfusion)

/-- A successful match consumes at least the keyword, one whitespace
character and one identifier character. -/
theorem tryMatch_rem_length {tns : List (List Char)} {s : List Char}
    {b : Bool} {repl rem : List Char}
    (h : tryMatch tns s b = some (repl, rem)) : rem.length < s.length := by
  obtain ⟨-, kw, ws, d, idt, hs, -, hmem, hws, -⟩ := tryMatch_inv h
  have h4 := (keyword_length hmem).1
  rw [hs]
  simp only [List.length_append, List.length_cons]
  have : ws.length ≠ 0 := fun h0 => hws (List.length_eq_zero.mp h0)
  omega

/-- No match can start inside a run of word characters that is followed by
a double quote: any keyword prefix would have to be followed by `\s+`, but
only word characters or `"` can follow it. -/
theorem tryMatch_none_word_quote {tns : List (List Char)} {w : List Char}
    (y : List Char) (hw : ∀ c ∈ w, isWordChar c = true) (b : Bool) :
    tryMatch tns (w ++ '"' :: y) b = none := by
  cases b
  case true => exact tryMatch_true
  case false =>
  cases hm : matchKeyword (w ++ '"' :: y) with
  | none => exact tryMatch_of_matchKeyword_none hm false
  | some p =>
    obtain ⟨kw, r1⟩ := p
    rw [tryMatch_of_matchKeyword_some hm]
    obtain ⟨hs, hmem⟩ := matchKeyword_inv hm
    have halpha := keyword_chars_alpha hmem
    have hkwlen : kw.length ≤ w.length := by
      by_contra hgt
      push_neg at hgt
      have hq : '"' ∈ kw := by
        have hkw : kw = (w ++ '"' :: y).take kw.length := by
          rw [hs, List.take_left]
        rw [hkw, List.take_append_eq_append_take,
          List.take_of_length_le (le_of_lt hgt)]
        apply List.mem_append_right
        cases hn : kw.length - w.length with
        | zero => omega
        | succ m =>
          rw [List.take_succ_cons]
          exact List.mem_cons_self '"' (y.take m)
      have := halpha '"' hq
      exact absurd this (by decide)
    have hr1 : r1 = w.drop kw.length ++ '"' :: y := by
      have h1 : r1 = (w ++ '"' :: y).drop kw.length := by
        rw [hs, List.drop_left]
      rw [h1, List.drop_append_eq_append_drop,
        Nat.sub_eq_zero_of_le hkwlen, List.drop_zero]
    have htw : r1.takeWhile isPySpace = [] := by
      rw [hr1]
      cases hwd : w.drop kw.length with
      | nil =>
        rw [List.nil_append]
        exact List.takeWhile_cons_of_neg (by decide)
      | cons e t =>
        rw [List.cons_append]
        apply List.takeWhile_cons_of_neg
        have he : e ∈ w :=
          List.drop_subset _ w (by rw [hwd]; exact List.mem_cons_self e t)
        rw [word_not_space (hw e he)]
        exact Bool.false_ne_true
    unfold tryMatchTail
    rw [if_pos htw]

/-- A keyword followed by a space and a quoted name never matches: the
quote is not an identifier start. -/
theorem tryMatch_keyword_quote {tns : List (List Char)} {kw : List Char}
    (z : List Char) (hkw : pyUpper kw ∈ KEYWORDS) (b : Bool) :
    tryMatch tns (kw ++ ' ' :: '"' :: z) b = none := by
  cases b
  case true => exact tryMatch_true
  case false =>
  rw [tryMatch_of_matchKeyword_some (matchKeyword_keyword_space ('"' :: z) hkw)]
  unfold tryMatchTail
  rw [List.takeWhile_cons_of_pos (by decide),
    List.takeWhile_cons_of_neg (by decide),
    if_neg (List.cons_ne_nil ' ' []),
    List.dropWhile_cons_of_pos (by decide),
    List.dropWhile_cons_of_neg (by decide),
    tryMatchIdent, if_neg (by decide)]

/-- A keyword followed by a space, a bare word-run name and a non-word
boundary matches, and the replacement substitutes the looked-up name. -/
theorem tryMatch_keyword_name {tns : List (List Char)} {kw : List Char}
    (hkw : pyUpper kw ∈ KEYWORDS) (d : Char) (idt y : List Char)
    (hd : isIdentStart d = true)
    (hword : ∀ c ∈ d :: idt, isWordChar c = true)
    (hy : y = [] ∨ ∃ e t', y = e :: t' ∧ isWordChar e = false) :
    tryMatch tns (kw ++ ' ' :: ((d :: idt) ++ y)) false =
      some (kw ++ ' ' :: replaceName tns (d :: idt), y) := by
  rw [tryMatch_of_matchKeyword_some
    (matchKeyword_keyword_space ((d :: idt) ++ y) hkw)]
  have hdw : isWordChar d = true := hword d (List.mem_cons_self d idt)
  have htw2 : ((d :: idt) ++ y).takeWhile isWordChar = d :: idt := by
    rw [takeWhile_append_all hword]
    cases hy with
    | inl h => rw [h]; simp
    | inr h =>
      obtain ⟨e, t', rfl, he⟩ := h
      rw [List.takeWhile_cons_of_neg (by rw [he]; exact Bool.false_ne_true),
        List.append_nil]
  have hdw2 : ((d :: idt) ++ y).dropWhile isWordChar = y := by
    rw [dropWhile_append_all hword]
    cases hy with
    | inl h => rw [h]; rfl
    | inr h =>
      obtain ⟨e, t', rfl, he⟩ := h
      exact List.dropWhile_cons_of_neg (by rw [he]; exact Bool.false_ne_true)
  unfold tryMatchTail
  rw [List.takeWhile_cons_of_pos (by decide), List.cons_append,
    List.takeWhile_cons_of_neg (by rw [word_not_space hdw]; exact Bool.false_ne_true),
    if_neg (List.cons_ne_nil ' ' []),
    List.dropWhile_cons_of_pos (by decide),
    List.dropWhile_cons_of_neg (by rw [word_not_space hdw]; exact Bool.false_ne_true),
    tryMatchIdent, if_pos hd, ← List.cons_append, htw2, hdw2]

/-! ### Basic behaviour of the scan -/

theorem subScanF_fuel_irrel {tns : List (List Char)} :
    ∀ (f1 f2 : Nat) (s : List Char) (b : Bool), s.length ≤ f1 →
      s.length ≤ f2 → subScanF tns f1 s b = subScanF tns f2 s b := by
  intro f1
  induction f1 with
  | zero =>
    intro f2 s b h1 _
    rw [Nat.le_zero, List.length_eq_zero] at h1
    subst h1
    cases f2 <;> rfl
  | succ f ih =>
    intro f2 s b h1 h2
    match s with
    | [] => cases f2 <;> rfl
    | c :: rest =>
      match f2 with
      | 0 => simp at h2
      | g + 1 =>
        rw [subScanF, subScanF]
        cases htm : tryMatch tns (c :: rest) b with
        | none =>
          show c :: subScanF tns f rest (isWordChar c) =
            c :: subScanF tns g rest (isWordChar c)
          rw [ih g rest (isWordChar c)
            (by simp only [List.length_cons] at h1; omega)
            (by simp only [List.length_cons] at h2; omega)]
        | some p =>
          obtain ⟨repl, rem⟩ := p
          show repl ++ subScanF tns f rem true =
            repl ++ subScanF tns g rem true
          have hlt := tryMatch_rem_length htm
          rw [List.length_cons] at hlt
          simp only [List.length_cons] at h1 h2
          rw [ih g rem true (by omega) (by omega)]

theorem subScan_nil {tns : List (List Char)} {b : Bool} :
    subScan tns [] b = [] := rfl

theorem subScan_cons_none {tns : List (List Char)} {c : Char}
    {rest : List Char} {b : Bool} (h : tryMatch tns (c :: rest) b = none) :
    subScan tns (c :: rest) b = c :: subScan tns rest (isWordChar c) := by
  rw [subScan, List.length_cons, subScanF, h]
  show c :: subScanF tns rest.length rest (isWordChar c) =
    c :: subScan tns rest (isWordChar c)
  rfl

theorem subScan_cons_some {tns : List (List Char)} {c : Char}
    {rest : List Char} {b : Bool} {repl rem : List Char}
    (h : tryMatch tns (c :: rest) b = some (repl, rem)) :
    subScan tns (c :: rest) b = repl ++ subScan tns rem true := by
  rw [subScan, List.length_cons, subScanF, h]
  show repl ++ subScanF tns rest.length rem true = repl ++ subScan tns rem true
  have hlt := tryMatch_rem_length h
  rw [List.length_cons] at hlt
  rw [subScanF_fuel_irrel rest.length rem.length rem true (by omega) le_rfl]
  rfl

theorem matchKeyword_nil : matchKeyword [] = none := by decide

theorem subScan_some {tns : List (List Char)} {s : List Char} {b : Bool}
    {repl rem : List Char} (h : tryMatch tns s b = some (repl, rem)) :
    subScan tns s b = repl ++ subScan tns rem true := by
  match s with
  | [] =>
    rw [tryMatch_of_matchKeyword_none matchKeyword_nil b] at h
    exact absurd h (by exact Option.noConfusion)
  | c :: rest => exact subScan_cons_some h

/-- The scan does not depend on the boundary flag when no keyword matches
at the current position. -/
theorem subScan_flag {tns : List (List Char)} {s : List Char}
    (hm : matchKeyword s = none) (b b' : Bool) :
    subScan tns s b = subScan tns s b' := by
  match s with
  | [] => rfl
  | c :: rest =>
    rw [subScan_cons_none (tryMatch_of_matchKeyword_none hm b),
      subScan_cons_none (tryMatch_of_matchKeyword_none hm b')]

/-- A run of word characters scanned with the flag set is copied
verbatim. -/
theorem subScan_words {tns : List (List Char)} :
    ∀ (w y : List Char), (∀ c ∈ w, isWordChar c = true) →
      subScan tns (w ++ y) true = w ++ subScan tns y true := by
  intro w
  induction w with
  | nil => intro y _; rfl
  | cons c w' ih =>
    intro y hw
    rw [List.cons_append, subScan_cons_none tryMatch_true,
      hw c (List.mem_cons_self c w'),
      ih y fun e he => hw e (List.mem_cons_of_mem c he)]
    rfl

/-- Decomposition of a scan: either nothing matches anywhere and the text
is copied verbatim, or the text splits at the first match, everything
before it copied, with the boundary flag false at the match position. -/
theorem subScan_decomp {tns : List (List Char)} :
    ∀ (s : List Char) (b : Bool),
      subScan tns s b = s ∨
      ∃ p u repl rem, s = p ++ u ∧
        tryMatch tns u false = some (repl, rem) ∧
        subScan tns s b = p ++ repl ++ subScan tns rem true ∧
        ((p = [] ∧ b = false) ∨
          (∃ q e, p = q ++ [e] ∧ isWordChar e = false)) := by
  intro s
  induction s with
  | nil => intro b; left; rfl
  | cons c rest ih =>
    intro b
    cases htm : tryMatch tns (c :: rest) b with
    | some pr =>
      obtain ⟨repl, rem⟩ := pr
      right
      have hb := (tryMatch_inv htm).1
      subst hb
      refine ⟨[], c :: rest, repl, rem, rfl, htm, ?_, Or.inl ⟨rfl, rfl⟩⟩
      rw [subScan_cons_some htm]
      rfl
    | none =>
      rcases ih (isWordChar c) with hid | ⟨p', u, repl, rem, hsplit, hu, hscan, hflag⟩
      · left
        rw [subScan_cons_none htm, hid]
      · right
        refine ⟨c :: p', u, repl, rem, by rw [hsplit]; rfl, hu, ?_, ?_⟩
        · rw [subScan_cons_none htm, hscan]
          rfl
        · rcases hflag with ⟨hp, hbf⟩ | ⟨q, e, hpe, hew⟩
          · subst hp
            exact Or.inr ⟨[], c, rfl, hbf⟩
          · exact Or.inr ⟨c :: q, e, by rw [hpe]; rfl, hew⟩

/-- Failure transfer: whether a match attempt fails at a position whose
word-run prefix reaches into a keyword depends only on the text up to and
including the keyword, not on what follows it. -/
theorem tryMatch_failure_transfer {tns : List (List Char)} {q kwu : List Char}
    {c e : Char} {x : List Char} (y : List Char)
    (hew : isWordChar e = false) (hkw : pyUpper kwu ∈ KEYWORDS)
    (hfail : tryMatch tns (((c :: q) ++ [e]) ++ (kwu ++ x)) false = none) :
    tryMatch tns (((c :: q) ++ [e]) ++ (kwu ++ y)) false = none := by
  have hassocx : ((c :: q) ++ [e]) ++ (kwu ++ x) =
      (((c :: q) ++ [e]) ++ kwu) ++ x := by
    simp [List.append_assoc]
  have hassocy : ((c :: q) ++ [e]) ++ (kwu ++ y) =
      (((c :: q) ++ [e]) ++ kwu) ++ y := by
    simp [List.append_assoc]
  rw [hassocx] at hfail
  rw [hassocy]
  have hlen6 : 6 ≤ ((((c :: q) ++ [e]) ++ kwu)).length := by
    have h4 := (keyword_length hkw).1
    simp only [List.length_append, List.length_cons, List.length_nil]
    omega
  cases hma : matchKeyword (((c :: q) ++ [e]) ++ kwu) with
  | none =>
    have hy' := matchKeyword_append hlen6 y
    rw [hma] at hy'
    exact tryMatch_of_matchKeyword_none (by rw [hy']; rfl) false
  | some pr =>
    obtain ⟨kw1, ra⟩ := pr
    have hx' := matchKeyword_append hlen6 x
    have hy' := matchKeyword_append hlen6 y
    rw [hma, Option.map_some'] at hx' hy'
    rw [tryMatch_of_matchKeyword_some hx'] at hfail
    rw [tryMatch_of_matchKeyword_some hy']
    obtain ⟨hsa, hmem1⟩ := matchKeyword_inv hma
    have halpha1 := keyword_chars_alpha hmem1
    have hsplit2 : ((c :: q) ++ [e]) ++ kwu = (c :: q) ++ e :: kwu := by
      rw [List.append_assoc]
      rfl
    have hkwlen : kw1.length ≤ (c :: q).length := by
      by_contra hgt
      push_neg at hgt
      have he_in : e ∈ kw1 := by
        have hkw1 : kw1 = (((c :: q) ++ [e]) ++ kwu).take kw1.length := by
          rw [hsa, List.take_left]
        rw [hkw1, hsplit2, List.take_append_eq_append_take,
          List.take_of_length_le (le_of_lt hgt)]
        apply List.mem_append_right
        cases hn : kw1.length - (c :: q).length with
        | zero => omega
        | succ m =>
          rw [List.take_succ_cons]
          exact List.mem_cons_self e (kwu.take m)
      rw [alpha_word (halpha1 e he_in)] at hew
      exact Bool.noConfusion hew
    have hra : ra = (c :: q).drop kw1.length ++ e :: kwu := by
      have h1 : ra = (((c :: q) ++ [e]) ++ kwu).drop kw1.length := by
        rw [hsa, List.drop_left]
      rw [h1, hsplit2, List.drop_append_eq_append_drop,
        Nat.sub_eq_zero_of_le hkwlen, List.drop_zero]
    have hkwu_ne : kwu ≠ [] := by
      have h4 := (keyword_length hkw).1
      intro h0
      rw [h0] at h4
      simp at h4
    obtain ⟨k0, ktl, hk0⟩ : ∃ k0 ktl, kwu = k0 :: ktl := by
      cases kwu with
      | nil => exact absurd rfl hkwu_ne
      | cons a bb => exact ⟨a, bb, rfl⟩
    have hwitness : ∃ ch ∈ ra, isPySpace ch = false := by
      refine ⟨k0, ?_, ?_⟩
      · rw [hra, hk0]
        exact List.mem_append_right _
          (List.mem_cons_of_mem e (List.mem_cons_self k0 ktl))
      · exact word_not_space (alpha_word
          (keyword_chars_alpha hkw k0 (by rw [hk0]; exact List.mem_cons_self k0 ktl)))
    unfold tryMatchTail at hfail ⊢
    rw [(takeWhile_append_exists hwitness).1,
      (takeWhile_append_exists hwitness).2] at hfail
    rw [(takeWhile_append_exists hwitness).1,
      (takeWhile_append_exists hwitness).2]
    by_cases hze : ra.takeWhile isPySpace = []
    · rw [if_pos hze]
    · rw [if_neg hze] at hfail ⊢
      obtain ⟨d0, dtl, hd0⟩ : ∃ d0 dtl, ra.dropWhile isPySpace = d0 :: dtl := by
        cases hh : ra.dropWhile isPySpace with
        | nil => exact absurd hh (dropWhile_ne_nil_of_exists hwitness)
        | cons a bb => exact ⟨a, bb, rfl⟩
      rw [hd0, List.cons_append, tryMatchIdent] at hfail
      rw [hd0, List.cons_append, tryMatchIdent]
      by_cases hds : isIdentStart d0 = true
      · rw [if_pos hds] at hfail
        exact absurd hfail (by exact Option.noConfusion)
      · rw [if_neg hds]

/-- Key step for idempotence at an unmatched position: if no match starts
at `c`, then no match starts at `c` in the rewritten continuation
either. -/
theorem tryMatch_none_preserved {tns : List (List Char)} {c : Char}
    {rest : List Char} {b : Bool}
    (h : tryMatch tns (c :: rest) b = none) :
    tryMatch tns (c :: subScan tns rest (isWordChar c)) b = none := by
  cases b
  case true => exact tryMatch_true
  case false =>
  rcases subScan_decomp rest (isWordChar c) with hid |
    ⟨p, u, repl, rem, hsplit, hu, hscan, hflag⟩
  · rw [hid]
    exact h
  · rw [hscan]
    obtain ⟨-, kwu, ws, d, idt, hudecomp, -, humem, -, -, -, -, -, hrepl⟩ :=
      tryMatch_inv hu
    rcases hflag with ⟨hp, hbf⟩ | ⟨q', e, hpe, hew⟩
    · subst hp
      exact tryMatch_not_word hbf false
    · have hshape_new : c :: (p ++ repl ++ subScan tns rem true) =
          ((c :: q') ++ [e]) ++
            (kwu ++ (' ' :: replaceName tns (d :: idt) ++ subScan tns rem true)) := by
        rw [hpe, hrepl]
        simp
      have hshape_old : c :: rest =
          ((c :: q') ++ [e]) ++ (kwu ++ (ws ++ (d :: idt) ++ rem)) := by
        rw [hsplit, hpe, hudecomp]
        simp
      rw [hshape_old] at h
      rw [hshape_new]
      exact tryMatch_failure_transfer _ hew humem h

/-- The substituted name (stored case, or the identifier itself when
unknown) is non-empty, consists of word characters, and has the same
lowercase form as the matched identifier.  For a hit this holds because
the dictionary key `name.lower()` equals the identifier's lowercase
form. -/
theorem replaceName_name_facts {tns : List (List Char)} {d : Char}
    {idt : List Char} (hword : ∀ c ∈ d :: idt, isWordChar c = true) :
    ∃ n0 ntl,
      (table_case_map_get tns (pyLower (d :: idt))).getD (d :: idt) =
        n0 :: ntl ∧
      (∀ c ∈ n0 :: ntl, isWordChar c = true) ∧
      pyLower (n0 :: ntl) = pyLower (d :: idt) := by
  cases hlk : table_case_map_get tns (pyLower (d :: idt)) with
  | none => exact ⟨d, idt, rfl, hword, rfl⟩
  | some tbl =>
    have heq : pyLower tbl = pyLower (d :: idt) := by
      have := List.find?_some hlk
      simpa using this
    have hne : tbl ≠ [] := by
      intro h0
      rw [h0] at heq
      have := congrArg List.length heq
      simp [pyLower] at this
    obtain ⟨n0, ntl, rfl⟩ : ∃ n0 ntl, tbl = n0 :: ntl := by
      cases tbl with
      | nil => exact absurd rfl hne
      | cons a bb => exact ⟨a, bb, rfl⟩
    refine ⟨n0, ntl, rfl, ?_, heq⟩
    intro ch hch
    have hmem2 : Char.toLower ch ∈ pyLower (n0 :: ntl) :=
      List.mem_map_of_mem Char.toLower hch
    rw [heq] at hmem2
    obtain ⟨c', hc', hcc⟩ := List.mem_map.mp hmem2
    have hw' : isWordChar (Char.toLower c') = true := word_toLower (hword c' hc')
    rw [hcc] at hw'
    exact word_of_word_toLower hw'

/-- Re-substituting an unquoted substituted name gives the name back: its
lowercase key is the same, so the dictionary lookup reproduces it. -/
theorem replaceName_fixed {tns : List (List Char)} {d n0 : Char}
    {idt ntl : List Char}
    (hnm : (table_case_map_get tns (pyLower (d :: idt))).getD (d :: idt) =
      n0 :: ntl)
    (hnmlower : pyLower (n0 :: ntl) = pyLower (d :: idt)) :
    replaceName tns (n0 :: ntl) = quote_identifier (n0 :: ntl) := by
  rw [replaceName, hnmlower]
  cases hlk : table_case_map_get tns (pyLower (d :: idt)) with
  | none =>
    rw [Option.getD_none]
  | some tbl =>
    rw [hlk, Option.getD_some] at hnm
    rw [Option.getD_some, hnm]

/-- The central re-scan lemma: a replacement emitted by a match, followed
by already-rescanned output, is left unchanged by the scan. -/
theorem subScan_replacement_fixed {tns : List (List Char)} {s : List Char}
    {repl rem : List Char} (h : tryMatch tns s false = some (repl, rem))
    (hY : subScan tns (subScan tns rem true) true = subScan tns rem true) :
    subScan tns (repl ++ subScan tns rem true) false =
      repl ++ subScan tns rem true := by
  obtain ⟨-, kwu, ws, d, idt, -, -, hkwmem, -, -, hd, hword, hremb, hrepl⟩ :=
    tryMatch_inv h
  have hYshape : subScan tns rem true = [] ∨
      ∃ e t', subScan tns rem true = e :: t' ∧ isWordChar e = false := by
    rcases hremb with hnil | ⟨e, t', hcons, hew⟩
    · left
      rw [hnil]
      rfl
    · right
      rw [hcons, subScan_cons_none (tryMatch_not_word hew true)]
      exact ⟨e, subScan tns t' (isWordChar e), rfl, hew⟩
  have hYfix_false : subScan tns (subScan tns rem true) false =
      subScan tns rem true := by
    rcases hYshape with hnil | ⟨e, t', hcons, hew⟩
    · rw [hnil]
      rfl
    · rw [hcons] at hY ⊢
      rw [subScan_flag (matchKeyword_none_of_not_alpha (not_alpha_not_word hew))
        false true]
      exact hY
  obtain ⟨k0, ktl, rfl⟩ : ∃ k0 ktl, kwu = k0 :: ktl := by
    cases kwu with
    | nil =>
      have h4 := (keyword_length hkwmem).1
      simp at h4
    | cons a bb => exact ⟨a, bb, rfl⟩
  have hkword : ∀ c ∈ k0 :: ktl, isWordChar c = true :=
    fun c hc => alpha_word (keyword_chars_alpha hkwmem c hc)
  obtain ⟨n0, ntl, hnm, hnmword, hnmlower⟩ := replaceName_name_facts hword
  rw [hrepl, replaceName, hnm]
  set Y := subScan tns rem true with hYdef
  by_cases hq : needs_quoting (n0 :: ntl) = true
  · -- quoted name: the scan copies everything verbatim
    rw [quote_identifier, if_pos hq]
    have hT : (k0 :: ktl ++ ' ' :: ('"' :: (n0 :: ntl) ++ ['"'])) ++ Y =
        k0 :: (ktl ++ ' ' :: '"' :: n0 :: (ntl ++ '"' :: Y)) := by
      simp
    rw [hT]
    have htm0 : tryMatch tns
        (k0 :: (ktl ++ ' ' :: '"' :: n0 :: (ntl ++ '"' :: Y))) false = none := by
      have := @tryMatch_keyword_quote tns (k0 :: ktl) (n0 :: (ntl ++ '"' :: Y))
        hkwmem false
      simpa using this
    rw [subScan_cons_none htm0, hkword k0 (List.mem_cons_self k0 ktl),
      subScan_words ktl _ fun c hc => hkword c (List.mem_cons_of_mem k0 hc),
      subScan_cons_none tryMatch_true,
      show isWordChar ' ' = false from by decide,
      subScan_cons_none (tryMatch_not_word (by decide) false),
      show isWordChar '"' = false from by decide]
    have htmn : tryMatch tns (n0 :: (ntl ++ '"' :: Y)) false = none := by
      have := @tryMatch_none_word_quote tns (n0 :: ntl) Y hnmword false
      simpa using this
    rw [subScan_cons_none htmn, hnmword n0 (List.mem_cons_self n0 ntl),
      subScan_words ntl _ fun c hc => hnmword c (List.mem_cons_of_mem n0 hc),
      subScan_cons_none tryMatch_true,
      show isWordChar '"' = false from by decide, hYfix_false]
  · -- unquoted name: the same match fires again and reproduces itself
    rw [Bool.not_eq_true] at hq
    rw [quote_identifier, if_neg (by rw [hq]; exact Bool.false_ne_true)]
    have hn0start : isIdentStart n0 = true := by
      have hcons : Char.toLower n0 :: pyLower ntl =
          Char.toLower d :: pyLower idt := by
        have := hnmlower
        simpa [pyLower] using this
      have h1 : Char.toLower n0 = Char.toLower d := by
        injection hcons
      have hlow : pyLower (n0 :: ntl) = n0 :: ntl := by
        have := hq
        rw [needs_quoting] at this
        simp only [Bool.or_eq_false_iff] at this
        exact bne_eq_false_iff_eq.mp this.1.1.1.1.2
      have h2 : Char.toLower n0 = n0 := by
        have := hlow
        simp only [pyLower, List.map_cons, List.cons.injEq] at this
        exact this.1
      rw [← h2, h1]
      exact identStart_toLower hd
    have hT : (k0 :: ktl ++ ' ' :: (n0 :: ntl)) ++ Y =
        (k0 :: ktl) ++ ' ' :: ((n0 :: ntl) ++ Y) := by
      simp
    rw [hT]
    have htm2 : tryMatch tns ((k0 :: ktl) ++ ' ' :: ((n0 :: ntl) ++ Y)) false =
        some ((k0 :: ktl) ++ ' ' :: replaceName tns (n0 :: ntl), Y) :=
      tryMatch_keyword_name hkwmem n0 ntl Y hn0start hnmword hYshape
    rw [subScan_some htm2, replaceName_fixed hnm hnmlower, quote_identifier,
      if_neg (by rw [hq]; exact Bool.false_ne_true), hY]
    simp

/-- The scan is idempotent: scanning its own output changes nothing. -/
theorem subScan_idem {tns : List (List Char)} :
    ∀ (n : Nat) (s : List Char) (b : Bool), s.length ≤ n →
      subScan tns (subScan tns s b) b = subScan tns s b := by
  intro n
  induction n with
  | zero =>
    intro s b h
    rw [Nat.le_zero, List.length_eq_zero] at h
    subst h
    rfl
  | succ n ih =>
    intro s b hlen
    match s with
    | [] => rfl
    | c :: rest =>
      cases htm : tryMatch tns (c :: rest) b with
      | none =>
        rw [subScan_cons_none htm,
          subScan_cons_none (tryMatch_none_preserved htm),
          ih rest (isWordChar c)
            (by simp only [List.length_cons] at hlen; omega)]
      | some pr =>
        obtain ⟨repl, rem⟩ := pr
        have hb := (tryMatch_inv htm).1
        subst hb
        rw [subScan_cons_some htm]
        have hremlen := tryMatch_rem_length htm
        rw [List.length_cons] at hremlen
        simp only [List.length_cons] at hlen
        exact subScan_replacement_fixed htm (ih rem true (by omega))

/-- Claim C6: `normalizeQuery` is idempotent — applying
`_process_sql_query` twice with the same known-table list gives the same
result as applying it once, for every SQL text and table list. -/
theorem C6_normalize_idempotent (sql : String) (table_names : List String) :
    process_sql_query (process_sql_query sql table_names) table_names =
      process_sql_query sql table_names := by
  rw [process_sql_query, process_sql_query]
  congr 1
  show subScan (table_names.map String.data)
      (subScan (table_names.map String.data) sql.data false) false =
    subScan (table_names.map String.data) sql.data false
  exact subScan_idem _ _ false le_rfl

/-- Claim C1: a bare word-run table reference immediately following the
keyword `FROM` whose lowercase form is a known-table key is rewritten to
the stored-case name, quoted when quoting is required; in particular with
known table `Employee_Records`, `FROM employee_records` becomes
`FROM "Employee_Records"` in the processed query. -/
theorem C1_normalize_from_rewrite :
    (∀ (tns : List (List Char)) (d : Char) (idt post N : List Char),
      isIdentStart d = true →
      (∀ c ∈ d :: idt, isWordChar c = true) →
      pyLower (d :: idt) = d :: idt →
      (post = [] ∨ ∃ e t', post = e :: t' ∧ isWordChar e = false) →
      table_case_map_get tns (pyLower (d :: idt)) = some N →
      subScan tns (['F', 'R', 'O', 'M'] ++ ' ' :: ((d :: idt) ++ post)) false =
        ['F', 'R', 'O', 'M'] ++
          ' ' :: (quote_identifier N ++ subScan tns post true)) ∧
    process_sql_query "SELECT * FROM employee_records" ["Employee_Records"] =
      "SELECT * FROM \"Employee_Records\"" := by
  constructor
  · intro tns d idt post N hd hword _hlow hpost hlk
    have htm := @tryMatch_keyword_name tns ['F', 'R', 'O', 'M'] (by decide)
      d idt post hd hword hpost
    rw [subScan_some htm, replaceName, hlk, Option.getD_some]
    simp [List.append_assoc]
  · decide

/-- Witness: `C1_normalize_from_rewrite` applied to the identifier
`employee_records` with known table `Employee_Records`. -/
theorem C1_normalize_from_rewrite_witness :
    subScan ["Employee_Records".data]
        (['F', 'R', 'O', 'M'] ++ ' ' :: (('e' :: "mployee_records".data) ++ [])) false =
      ['F', 'R', 'O', 'M'] ++
        ' ' :: (quote_identifier "Employee_Records".data ++
          subScan ["Employee_Records".data] [] true) ∧
    process_sql_query "SELECT * FROM employee_records" ["Employee_Records"] =
      "SELECT * FROM \"Employee_Records\"" := by
  constructor
  · exact C1_normalize_from_rewrite.1 ["Employee_Records".data] 'e'
      "mployee_records".data [] "Employee_Records".data (by decide) (by decide)
      (by decide) (Or.inl rfl) (by decide)
  · exact C1_normalize_from_rewrite.2

/-- Claim C7 (amended): a keyword-following identifier whose lowercase
form is not a known-table key keeps its own text, but is still passed
through `_quote_identifier`: the emitted reference is either the
identifier itself or the identifier wrapped in double quotes, and the
whitespace after the keyword is collapsed to one space. -/
theorem C7_unmatched_identifier_quoted :
    ∀ (tns : List (List Char)) (kw : List Char) (d : Char)
      (idt post : List Char),
      pyUpper kw ∈ KEYWORDS →
      isIdentStart d = true →
      (∀ c ∈ d :: idt, isWordChar c = true) →
      (post = [] ∨ ∃ e t', post = e :: t' ∧ isWordChar e = false) →
      table_case_map_get tns (pyLower (d :: idt)) = none →
      subScan tns (kw ++ ' ' :: ((d :: idt) ++ post)) false =
        kw ++ ' ' :: (quote_identifier (d :: idt) ++ subScan tns post true) ∧
      (quote_identifier (d :: idt) = d :: idt ∨
        quote_identifier (d :: idt) = '"' :: (d :: idt) ++ ['"']) := by
  intro tns kw d idt post hkw hd hword hpost hlk
  constructor
  · have htm := @tryMatch_keyword_name tns kw hkw d idt post hd hword hpost
    rw [subScan_some htm, replaceName, hlk, Option.getD_none]
    simp [List.append_assoc]
  · rw [quote_identifier]
    by_cases hq : needs_quoting (d :: idt) = true
    · rw [if_pos hq]
      exact Or.inr rfl
    · rw [Bool.not_eq_true] at hq
      rw [if_neg (by rw [hq]; exact Bool.false_ne_true)]
      exact Or.inl rfl

/-- Witness: `C7_unmatched_identifier_quoted` at the unmatched identifier
`Alias` after `FROM` with no known tables. -/
theorem C7_unmatched_identifier_quoted_witness :
    subScan [] (['F', 'R', 'O', 'M'] ++ ' ' :: (('A' :: "lias".data) ++ [])) false =
      ['F', 'R', 'O', 'M'] ++
        ' ' :: (quote_identifier ('A' :: "lias".data) ++ subScan [] [] true) ∧
    (quote_identifier ('A' :: "lias".data) = 'A' :: "lias".data ∨
      quote_identifier ('A' :: "lias".data) = '"' :: ('A' :: "lias".data) ++ ['"']) := by
  exact C7_unmatched_identifier_quoted [] ['F', 'R', 'O', 'M'] 'A' "lias".data
    [] (by decide) (by decide) (by decide) (Or.inl rfl) (by decide)

end NL2SQL
